import Mathlib

set_option maxHeartbeats 1000000

/-!
Formal model of the flat-namespace block filesystem implemented in `src/fs.c`
(format / mount / unmount lifecycle and create / delete / read / write / list
operations over a single disk-image file).  The in-memory session state
(superblock, block bitmap, inode table) and the backing file are modelled
explicitly; every operation below is a direct translation of the corresponding
C function.
-/

/-- Modelled from the spec: `BLOCK_SIZE` lives in the missing header `fs.h`.
The spec and the test drivers fix it at 4096 bytes ("4KB data", "48KB = 12
blocks * 4KB"). -/
abbrev BLOCK_SIZE : Nat := 4096

/-- Modelled from the spec: `MAX_DIRECT_BLOCKS` lives in the missing header
`fs.h`.  The edge-case tests state the per-file cap as "48KB = 12 blocks *
4KB", so the direct-block count is 12. -/
abbrev MAX_DIRECT_BLOCKS : Nat := 12

/-- Modelled from the spec: `MAX_BLOCKS` lives in the missing header `fs.h`.
The spec reserves blocks [0,10) for metadata and bounds the block count by one
block's bit capacity; the stress tests require roughly 110..254 total blocks
(100 one-block files fit, a 245-block write does not).  We use 128. -/
abbrev MAX_BLOCKS : Nat := 128

/-- Modelled from the spec: `MAX_FILES` lives in the missing header `fs.h`.
The inode table occupies blocks 2..9 and the spec calls the write-size bound
`MAX_FILES * block_size` "looser than the true per-file cap of
MAX_DIRECT_BLOCKS * block_size", so `MAX_FILES > MAX_DIRECT_BLOCKS`; the
stress driver expects a 1 MB (245-block) write to reach the free-space check,
so `MAX_FILES ≥ 245`.  We use 256. -/
abbrev MAX_FILES : Nat := 256

/-- Modelled from the spec: `MAX_FILENAME` lives in the missing header `fs.h`.
A name is a bounded string of at most `MAX_FILENAME - 1` characters; the tests
only require that a 49-character name is rejected.  We use 28. -/
abbrev MAX_FILENAME : Nat := 28

/-- Modelled from the spec: byte size of the on-disk superblock record
(`sizeof(superblock)` in C: five 4-byte integers). -/
abbrev SB_BYTES : Nat := 20

/-- Modelled from the spec: byte size of one on-disk inode record
(`sizeof(inode)` in C: used flag + name buffer + size + 12 block pointers). -/
abbrev INODE_BYTES : Nat := 4 + MAX_FILENAME + 4 + 4 * MAX_DIRECT_BLOCKS

/-- The `superblock` struct of `fs.h`/`fs.c`.  All five fields are C `int`s. -/
structure Superblock where
  total_blocks : Int
  block_size : Int
  free_blocks : Int
  total_inodes : Int
  free_inodes : Int
deriving DecidableEq

/-- The `inode` struct of `fs.h`/`fs.c`.  The C `char name[MAX_FILENAME]`
buffer always holds a terminated string of length `< MAX_FILENAME`, modelled
as a `String`; `blocks` is the length-`MAX_DIRECT_BLOCKS` array of direct
block pointers (0 = unallocated sentinel). -/
structure Inode where
  used : Bool
  name : String
  size : Int
  blocks : List Nat
deriving DecidableEq

/-- The whole world of `fs.c`: the in-memory globals (`sb`, `block_bitmap`,
`inode_table`, `disk_fd`) plus the contents of the one backing disk-image
file.  `bitmap` models the `block_bitmap` byte array as its sequence of bits
(bit `i` = block `i` used); `fdata` models the data-block region of the file,
indexed by absolute block number (entries below 10 are unused padding: those
file blocks hold the metadata copies `fsb`/`fbitmap`/`finodes`).  `flen` is
the byte length of the backing file, used to model short reads at mount. -/
structure Sys where
  mounted : Bool
  sb : Superblock
  bitmap : List Bool
  inodes : List Inode
  fileExists : Bool
  fsb : Superblock
  fbitmap : List Bool
  finodes : List Inode
  fdata : List (List Nat)
  flen : Nat
deriving DecidableEq

/-- A fully cleared inode (as produced by `fs_format`'s table initialisation). -/
def emptyInode : Inode :=
  { used := false, name := "", size := 0, blocks := List.replicate MAX_DIRECT_BLOCKS 0 }

/-- First index satisfying the predicate, as scanned by the linear loops of
`find_inode` / `find_free_inode`. -/
def findFirst? (p : α → Bool) : List α → Option Nat
  | [] => none
  | a :: as => if p a then some 0 else (findFirst? p as).map (· + 1)

/-- `find_inode`: first used slot whose stored name matches `filename`
(`strncmp` over the bounded buffers is plain string equality because every
stored name and every looked-up name has length `< MAX_FILENAME`). -/
def find_inode (inodes : List Inode) (filename : String) : Option Nat :=
  findFirst? (fun ino => ino.used && ino.name == filename) inodes

/-- `find_free_inode`: first unused slot. -/
def find_free_inode (inodes : List Inode) : Option Nat :=
  findFirst? (fun ino => !ino.used) inodes

/-- The scan of `find_free_block`: starting at block `i`, test `n` successive
bitmap bits and return the first clear one. -/
def scanFree (bm : List Bool) : Nat → Nat → Option Nat
  | _, 0 => none
  | i, n + 1 => if bm.getD i true then scanFree bm (i + 1) n else some i

/-- `find_free_block`: linear scan of the bitmap from block 10 upward. -/
def find_free_block (bm : List Bool) : Option Nat :=
  scanFree bm 10 (MAX_BLOCKS - 10)

/-- Clear the bitmap bits of every block in the list (`mark_block_free` applied
along a loop). -/
def clearAll (bs : List Nat) (bm : List Bool) : List Bool :=
  bs.foldl (fun acc b => acc.set b false) bm

/-- The non-zero block pointers of one inode. -/
def blocksOf (ino : Inode) : List Nat :=
  ino.blocks.filter (fun b => b != 0)

/-- Non-zero block pointers contributed by one slot (nothing if unused). -/
def entryBlocks (ino : Inode) : List Nat :=
  if ino.used then blocksOf ino else []

/-- All non-zero block pointers of used inodes, in slot order. -/
def usedBlocks : List Inode → List Nat
  | [] => []
  | ino :: rest => entryBlocks ino ++ usedBlocks rest

/-- Number of used inode slots. -/
def usedCount : List Inode → Nat
  | [] => 0
  | ino :: rest => (if ino.used then 1 else 0) + usedCount rest

/-- Per-used-inode count of non-zero block pointers, summed over the table
(the quantity named in the superblock counter invariant). -/
def totalNzPtrs : List Inode → Nat
  | [] => 0
  | ino :: rest => (if ino.used then (blocksOf ino).length else 0) + totalNzPtrs rest

/-- Zero-pad a byte list on the right up to length `n` (the tail-zeroing that
`fs_write` performs on a partial final block; positioned block writes always
cover the full `BLOCK_SIZE` bytes of the block). -/
def padTo (n : Nat) (l : List Nat) : List Nat :=
  l ++ List.replicate (n - l.length) 0

/-- The `BLOCK_SIZE` bytes `fs_write` stores into the disk block that receives
chunk `i` of `needed` total chunks: `to_write` data bytes from offset
`i * BLOCK_SIZE`, the rest zeroed. -/
def chunkAt (d : List Nat) (sz i needed : Nat) : List Nat :=
  let toWrite := if i = needed - 1 then sz - i * BLOCK_SIZE else BLOCK_SIZE
  padTo BLOCK_SIZE ((d.drop (i * BLOCK_SIZE)).take toWrite)

/-- A block of zero bytes (as written by `fs_format` to the data region). -/
def zeroBlock : List Nat := List.replicate BLOCK_SIZE 0

/-- Superblock freshly written by `fs_format`. -/
def freshSB : Superblock :=
  { total_blocks := (MAX_BLOCKS : Int), block_size := (BLOCK_SIZE : Int),
    free_blocks := (MAX_BLOCKS : Int) - 10, total_inodes := (MAX_FILES : Int),
    free_inodes := (MAX_FILES : Int) }

/-- Bitmap freshly written by `fs_format`: blocks [0,10) used, the rest free. -/
def freshBitmap : List Bool :=
  (List.range MAX_BLOCKS).map (fun i => decide (i < 10))

/-- Inode table freshly written by `fs_format`: all slots cleared. -/
def freshInodes : List Inode := List.replicate MAX_FILES emptyInode

/-- `fs_format`: (re)creates the backing file, resets the in-memory superblock,
bitmap and inode table, and writes them plus a zeroed data region to the file.
It does not touch `disk_fd` (the `mounted` flag). -/
def fs_format (s : Sys) : Int × Sys :=
  (0, { s with
        sb := freshSB, bitmap := freshBitmap, inodes := freshInodes,
        fileExists := true, fsb := freshSB, fbitmap := freshBitmap,
        finodes := freshInodes,
        fdata := List.replicate MAX_BLOCKS zeroBlock,
        flen := MAX_BLOCKS * BLOCK_SIZE })

/-- The superblock validation performed by `fs_mount`. -/
def sbValid (sb : Superblock) : Prop :=
  sb.total_blocks = (MAX_BLOCKS : Int) ∧ sb.block_size = (BLOCK_SIZE : Int) ∧
    sb.total_inodes = (MAX_FILES : Int)

instance (sb : Superblock) : Decidable (sbValid sb) := by
  unfold sbValid; infer_instance

/-- `fs_mount`: fails if already mounted or the file is missing; reads back the
superblock (failing closed on a short read), validates it against the compiled
constants, then reads back the bitmap and the inode table (each failing closed
on a short read).  The stored free counters are adopted as-is. -/
def fs_mount (s : Sys) : Int × Sys :=
  if s.mounted then (-1, s)
  else if s.fileExists = false then (-1, s)
  else if s.flen < SB_BYTES then (-1, s)
  else
    let s₁ := { s with sb := s.fsb }
    if ¬ sbValid s.fsb then (-1, s₁)
    else if s.flen < 2 * BLOCK_SIZE then (-1, s₁)
    else
      let s₂ := { s₁ with bitmap := s.fbitmap }
      if s.flen < 2 * BLOCK_SIZE + MAX_FILES * INODE_BYTES then (-1, s₂)
      else (0, { s₂ with inodes := s.finodes, mounted := true })

/-- `fs_unmount`: no-op when unmounted; otherwise flushes superblock, bitmap
and inode table back to their fixed offsets and clears the mounted flag
(the data region is already on the file). -/
def fs_unmount (s : Sys) : Sys :=
  if s.mounted = false then s
  else { s with
         fsb := s.sb, fbitmap := s.bitmap, finodes := s.inodes,
         flen := max s.flen (2 * BLOCK_SIZE + MAX_FILES * INODE_BYTES),
         mounted := false }

/-- `fs_create`: argument checks, existence check, free-slot allocation, inode
initialisation, `free_inodes` decrement. -/
def fs_create (s : Sys) (filename : Option String) : Int × Sys :=
  if s.mounted = false then (-3, s)
  else match filename with
  | none => (-3, s)
  | some f =>
    if MAX_FILENAME ≤ f.length then (-3, s)
    else if (find_inode s.inodes f).isSome then (-1, s)
    else match find_free_inode s.inodes with
    | none => (-2, s)
    | some idx =>
      (0, { s with
            inodes := s.inodes.set idx
              { used := true, name := f, size := 0,
                blocks := List.replicate MAX_DIRECT_BLOCKS 0 },
            sb := { s.sb with free_inodes := s.sb.free_inodes - 1 } })

/-- `fs_delete`: argument checks, lookup, then free every non-zero block
pointer (bitmap clear + `free_blocks` increment + pointer cleared), clear the
inode and increment `free_inodes`. -/
def fs_delete (s : Sys) (filename : Option String) : Int × Sys :=
  if s.mounted = false then (-2, s)
  else match filename with
  | none => (-3, s)
  | some f =>
    if MAX_FILENAME ≤ f.length then (-3, s)
    else match find_inode s.inodes f with
    | none => (-1, s)
    | some idx =>
      let ino := s.inodes.getD idx emptyInode
      let freed := blocksOf ino
      (0, { s with
            bitmap := clearAll freed s.bitmap,
            sb := { s.sb with
                    free_blocks := s.sb.free_blocks + freed.length,
                    free_inodes := s.sb.free_inodes + 1 },
            inodes := s.inodes.set idx
              { used := false, name := "", size := 0,
                blocks := ino.blocks.map (fun _ => 0) } })

/-- The loop of `fs_list`: walk the slots in ascending order, copying out the
names of used inodes while capacity remains. -/
def listLoop : List Inode → Nat → List String
  | [], _ => []
  | ino :: rest, maxLeft =>
    if maxLeft = 0 then []
    else if ino.used then ino.name :: listLoop rest (maxLeft - 1)
    else listLoop rest maxLeft

/-- `fs_list`: returns −1 when unmounted, the buffer is null, or `max_files`
is outside (0, MAX_FILES]; otherwise emits used names in slot order, up to
`max_files` of them, and returns the count written. -/
def fs_list (s : Sys) (bufPresent : Bool) (maxFiles : Int) : Int × List String :=
  if s.mounted = false then (-1, [])
  else if bufPresent = false then (-1, [])
  else if maxFiles ≤ 0 then (-1, [])
  else if (MAX_FILES : Int) < maxFiles then (-1, [])
  else
    let out := listLoop s.inodes maxFiles.toNat
    ((out.length : Int), out)

/-- Outcome of `fs_write`.  `ret` is a normal C return with the resulting
state; the other two constructors mark executions that are undefined behavior
in the C source: `oobIndex i` records the allocation loop writing
`inode->blocks[i]` with `i ≥ MAX_DIRECT_BLOCKS` (out of array bounds), and
`allocFail` records `find_free_block` returning −1, which the loop does not
check before using the index. -/
inductive WriteResult where
  | ret (code : Int) (s : Sys)
  | oobIndex (i : Nat)
  | allocFail
deriving DecidableEq

/-- The return code of a normal `fs_write` return, if any. -/
def WriteResult.code? : WriteResult → Option Int
  | .ret c _ => some c
  | _ => none

/-- The resulting state of a normal `fs_write` return, if any. -/
def WriteResult.state? : WriteResult → Option Sys
  | .ret _ s => some s
  | _ => none

/-- The free-old-blocks phase of `fs_write` on inode `idx`: every non-zero
pointer is freed in the bitmap, counted back into `free_blocks`, and cleared. -/
def freeOld (s : Sys) (idx : Nat) : Sys :=
  let ino := s.inodes.getD idx emptyInode
  let freed := blocksOf ino
  { s with
    bitmap := clearAll freed s.bitmap,
    sb := { s.sb with free_blocks := s.sb.free_blocks + freed.length },
    inodes := s.inodes.set idx { ino with blocks := ino.blocks.map (fun _ => 0) } }

/-- The allocation loop of `fs_write` (`for i in [0, needed)`): pick the first
free block, mark it used, decrement `free_blocks`, store it in
`inode->blocks[i]` and write data chunk `i` to that disk block.  The C code
neither checks `find_free_block`'s −1 nor bounds `i` by `MAX_DIRECT_BLOCKS`;
those two undefined-behavior branches surface as `allocFail` / `oobIndex`. -/
def allocLoop (idx : Nat) (d : List Nat) (sz needed : Nat) (i : Nat) (t : Sys) :
    WriteResult :=
  if i < needed then
    match find_free_block t.bitmap with
    | none => .allocFail
    | some b =>
      if MAX_DIRECT_BLOCKS ≤ i then .oobIndex i
      else
        let ino := t.inodes.getD idx emptyInode
        allocLoop idx d sz needed (i + 1)
          { t with
            bitmap := t.bitmap.set b true,
            sb := { t.sb with free_blocks := t.sb.free_blocks - 1 },
            inodes := t.inodes.set idx { ino with blocks := ino.blocks.set i b },
            fdata := t.fdata.set b (chunkAt d sz i needed) }
  else .ret 0 t
termination_by needed - i
decreasing_by omega

/-- A fuel-indexed structural twin of `allocLoop`, used to evaluate the loop
on concrete states (the well-founded original does not reduce by `decide`). -/
def allocLoopF (fuel : Nat) (idx : Nat) (d : List Nat) (sz needed : Nat)
    (i : Nat) (t : Sys) : WriteResult :=
  match fuel with
  | 0 => .ret 0 t
  | fuel + 1 =>
    if i < needed then
      match find_free_block t.bitmap with
      | none => .allocFail
      | some b =>
        if MAX_DIRECT_BLOCKS ≤ i then .oobIndex i
        else
          let ino := t.inodes.getD idx emptyInode
          allocLoopF fuel idx d sz needed (i + 1)
            { t with
              bitmap := t.bitmap.set b true,
              sb := { t.sb with free_blocks := t.sb.free_blocks - 1 },
              inodes := t.inodes.set idx { ino with blocks := ino.blocks.set i b },
              fdata := t.fdata.set b (chunkAt d sz i needed) }
    else .ret 0 t

/-- The epilogue of `fs_write`: zero the pointer slots from `needed` on and
store the new size. -/
def finishWrite (s : Sys) (idx needed : Nat) (size : Int) : Sys :=
  let ino := s.inodes.getD idx emptyInode
  { s with
    inodes := s.inodes.set idx
      { ino with size := size,
                 blocks := ino.blocks.take needed ++
                   (ino.blocks.drop needed).map (fun _ => 0) } }

/-- `fs_write`: argument checks (−3), lookup (−1), needed-block computation,
space check (−2, before any mutation), free-old phase, allocation loop,
epilogue. -/
def fs_write (s : Sys) (filename : Option String) (data : Option (List Nat))
    (size : Int) : WriteResult :=
  if s.mounted = false then .ret (-3) s
  else match filename, data with
  | none, _ => .ret (-3) s
  | some _, none => .ret (-3) s
  | some f, some d =>
    if size ≤ 0 then .ret (-3) s
    else if MAX_FILENAME ≤ f.length then .ret (-3) s
    else if ((MAX_FILES : Int) * (BLOCK_SIZE : Int)) < size then .ret (-3) s
    else match find_inode s.inodes f with
    | none => .ret (-1) s
    | some idx =>
      let needed : Nat := (size.toNat + BLOCK_SIZE - 1) / BLOCK_SIZE
      if s.sb.free_blocks < (needed : Int) then .ret (-2) s
      else
        match allocLoop idx d size.toNat needed 0 (freeOld s idx) with
        | .ret _ s₂ => .ret 0 (finishWrite s₂ idx needed size)
        | r => r

/-- The read loop of `fs_read`: walk the block pointers while bytes remain,
stopping at the first zero pointer; each step reads `min remaining BLOCK_SIZE`
bytes from the start of the pointed-to disk block. -/
def readLoop (fdata : List (List Nat)) : List Nat → Nat → List Nat
  | [], _ => []
  | b :: bs, remaining =>
    if remaining = 0 then []
    else if b = 0 then []
    else
      let chunk := min remaining BLOCK_SIZE
      (padTo BLOCK_SIZE (fdata.getD b [])).take chunk ++
        readLoop fdata bs (remaining - chunk)

/-- `fs_read`: argument checks (−3), lookup (−1), then read
`min size inode->size` bytes by walking the block pointers; returns the byte
count actually read together with the bytes placed in the caller's buffer. -/
def fs_read (s : Sys) (filename : Option String) (bufPresent : Bool)
    (size : Int) : Int × List Nat :=
  if s.mounted = false then (-3, [])
  else match filename with
  | none => (-3, [])
  | some f =>
    if bufPresent = false then (-3, [])
    else if size ≤ 0 then (-3, [])
    else if MAX_FILENAME ≤ f.length then (-3, [])
    else match find_inode s.inodes f with
    | none => (-1, [])
    | some idx =>
      let ino := s.inodes.getD idx emptyInode
      let toRead : Nat := if ino.size < size then ino.size.toNat else size.toNat
      let out := readLoop s.fdata ino.blocks toRead
      ((out.length : Int), out)

/-- One completed API operation while mounted (a `fs_write` step exists only
for executions that return normally; the undefined-behavior branches produce
no resulting state).  `fs_read` and `fs_list` do not mutate the state. -/
inductive Step (s : Sys) : Sys → Prop where
  | create (fn : Option String) : Step s (fs_create s fn).2
  | delete (fn : Option String) : Step s (fs_delete s fn).2
  | write (fn : Option String) (d : Option (List Nat)) (size : Int)
      (code : Int) (s' : Sys) (h : fs_write s fn d size = .ret code s') :
      Step s s'
  | read (fn : Option String) (b : Bool) (size : Int) : Step s s
  | list (b : Bool) (m : Int) : Step s s

/-- An arbitrary (unmounted, empty) initial world from which the session is
formatted and mounted. -/
def initSys : Sys :=
  { mounted := false, sb := freshSB, bitmap := [], inodes := [],
    fileExists := false, fsb := freshSB, fbitmap := [], finodes := [],
    fdata := [], flen := 0 }

/-- The state right after formatting a fresh image and mounting it. -/
def mounted0 : Sys := (fs_mount (fs_format initSys).2).2

/-- States reachable while mounted, starting from a freshly formatted and
mounted image. -/
inductive Reachable : Sys → Prop where
  | base : Reachable mounted0
  | step {s s' : Sys} : Reachable s → Step s s' → Reachable s'

/-- The session invariant maintained while mounted: bitmap and data-region
lengths; every inode has exactly `MAX_DIRECT_BLOCKS` pointers; non-zero
pointers of used inodes lie in the data region [10, MAX_BLOCKS) and are
globally distinct; the bitmap marks exactly the metadata blocks plus those
pointers; the free counters agree with the bitmap and the table; the geometry
fields hold the compiled constants. -/
structure SessionInv (s : Sys) : Prop where
  hbml : s.bitmap.length = MAX_BLOCKS
  hfdl : s.fdata.length = MAX_BLOCKS
  hblen : ∀ ino ∈ s.inodes, ino.blocks.length = MAX_DIRECT_BLOCKS
  hrange : ∀ b ∈ usedBlocks s.inodes, 10 ≤ b ∧ b < MAX_BLOCKS
  hnodup : (usedBlocks s.inodes).Nodup
  hbm : ∀ b, b < MAX_BLOCKS →
    (s.bitmap.getD b true = true ↔ (b < 10 ∨ b ∈ usedBlocks s.inodes))
  hfb : s.sb.free_blocks = ((MAX_BLOCKS : Int) - 10) - (usedBlocks s.inodes).length
  hfi : s.sb.free_inodes = (MAX_FILES : Int) - usedCount s.inodes
  htb : s.sb.total_blocks = (MAX_BLOCKS : Int)
  hbs : s.sb.block_size = (BLOCK_SIZE : Int)
  hti : s.sb.total_inodes = (MAX_FILES : Int)

/-- The block-disjointness property of claim C3: no two distinct used slots
share a non-zero block pointer. -/
def BlockDisjoint (s : Sys) : Prop :=
  ∀ i j, i < s.inodes.length → j < s.inodes.length → i ≠ j →
    (s.inodes.getD i emptyInode).used = true →
    (s.inodes.getD j emptyInode).used = true →
    ∀ b, b ≠ 0 → b ∈ (s.inodes.getD i emptyInode).blocks →
      b ∉ (s.inodes.getD j emptyInode).blocks

/-- A small mounted session used as concrete test input: slot 0 holds an empty
file `a.txt`, slot 1 is free, the bitmap and data region are fresh, and the
counters agree with the table. -/
def sTiny : Sys :=
  { mounted := true,
    sb := { total_blocks := 128, block_size := 4096, free_blocks := 118,
            total_inodes := 256, free_inodes := 255 },
    bitmap := freshBitmap,
    inodes := [{ used := true, name := "a.txt", size := 0,
                 blocks := List.replicate MAX_DIRECT_BLOCKS 0 }, emptyInode],
    fileExists := true, fsb := freshSB, fbitmap := freshBitmap,
    finodes := freshInodes, fdata := List.replicate MAX_BLOCKS zeroBlock,
    flen := MAX_BLOCKS * BLOCK_SIZE }

/-- `sTiny` with the stored free-block counter at 0 (a mounted session whose
trusted counter reports a full disk). -/
def sTinyFull : Sys :=
  { sTiny with sb := { sTiny.sb with free_blocks := 0 } }

/-- A mounted session whose bitmap lies: slot 1 (`b.txt`) references data
block 10 whose content is a block of 7-bytes, yet the bitmap reports block 10
free.  The block-disjointness property still holds (only one inode references
block 10). -/
def sLie : Sys :=
  { mounted := true,
    sb := { total_blocks := 128, block_size := 4096, free_blocks := 5,
            total_inodes := 256, free_inodes := 254 },
    bitmap := freshBitmap,
    inodes := [{ used := true, name := "a.txt", size := 0,
                 blocks := List.replicate MAX_DIRECT_BLOCKS 0 },
               { used := true, name := "b.txt", size := 5,
                 blocks := 10 :: List.replicate (MAX_DIRECT_BLOCKS - 1) 0 }],
    fileExists := true, fsb := freshSB, fbitmap := freshBitmap,
    finodes := freshInodes,
    fdata := (List.replicate MAX_BLOCKS zeroBlock).set 10
      (List.replicate BLOCK_SIZE 7),
    flen := MAX_BLOCKS * BLOCK_SIZE }

/-- The freshly formatted (but unmounted) world. -/
def fmtState : Sys := (fs_format initSys).2

/-- The freshly formatted-and-mounted image with one empty file `a.txt`. -/
def createdState : Sys := (fs_create mounted0 (some "a.txt")).2

/-- A formatted image whose stored superblock carries a wrong geometry. -/
def sBadSB : Sys := { fmtState with fsb := { freshSB with total_blocks := 64 } }

/-- A formatted image truncated to 10 bytes (every mount read falls short). -/
def sShort : Sys := { fmtState with flen := 10 }

/-! ### Basic list lemmas -/

theorem getD_set_self {α : Type} (l : List α) (i : Nat) (a d : α)
    (h : i < l.length) : (l.set i a).getD i d = a := by
  induction l generalizing i with
  | nil => simp at h
  | cons x xs ih =>
    cases i with
    | zero => simp [List.set, List.getD]
    | succ n =>
      simp only [List.set, List.getD_cons_succ]
      exact ih n (by simpa using h)

theorem getD_set_ne {α : Type} (l : List α) (i j : Nat) (a d : α)
    (h : i ≠ j) : (l.set i a).getD j d = l.getD j d := by
  induction l generalizing i j with
  | nil => simp [List.set]
  | cons x xs ih =>
    cases i with
    | zero =>
      cases j with
      | zero => exact absurd rfl h
      | succ m => simp [List.set]
    | succ n =>
      cases j with
      | zero => simp [List.set]
      | succ m =>
        simp only [List.set, List.getD_cons_succ]
        exact ih n m (fun hnm => h (by omega))

theorem take_set_self {α : Type} (l : List α) (i : Nat) (a : α) :
    (l.set i a).take i = l.take i := by
  induction l generalizing i with
  | nil => simp
  | cons x xs ih =>
    cases i with
    | zero => simp
    | succ n => simp [List.set, ih]

theorem drop_set_succ {α : Type} (l : List α) (i : Nat) (a : α) :
    (l.set i a).drop (i + 1) = l.drop (i + 1) := by
  induction l generalizing i with
  | nil => simp
  | cons x xs ih =>
    cases i with
    | zero => simp
    | succ n => simp [List.set, ih]

theorem getD_append_left {α : Type} (l₁ l₂ : List α) (k : Nat) (d : α)
    (h : k < l₁.length) : (l₁ ++ l₂).getD k d = l₁.getD k d := by
  induction l₁ generalizing k with
  | nil => simp at h
  | cons x xs ih =>
    cases k with
    | zero => simp
    | succ n =>
      simp only [List.cons_append, List.getD_cons_succ]
      exact ih n (by simpa using h)

theorem getD_append_right {α : Type} (l₁ l₂ : List α) (k : Nat) (d : α) :
    (l₁ ++ l₂).getD (l₁.length + k) d = l₂.getD k d := by
  induction l₁ with
  | nil => simp
  | cons x xs ih =>
    simpa [Nat.succ_add] using ih

theorem getD_drop {α : Type} (l : List α) (n k : Nat) (d : α) :
    (l.drop n).getD k d = l.getD (n + k) d := by
  induction l generalizing n with
  | nil => simp
  | cons x xs ih =>
    cases n with
    | zero => simp
    | succ m =>
      simp only [List.drop_succ_cons]
      rw [ih, Nat.succ_add]
      simp

theorem getD_replicate {α : Type} (n k : Nat) (a d : α) (h : k < n) :
    (List.replicate n a).getD k d = a := by
  induction n generalizing k with
  | zero => omega
  | succ m ih =>
    cases k with
    | zero => simp [List.replicate]
    | succ j =>
      simp only [List.replicate, List.getD_cons_succ]
      exact ih j (by omega)

theorem set_append_len {α : Type} (l₁ l₂ : List α) (a : α) :
    (l₁ ++ l₂).set l₁.length a = l₁ ++ l₂.set 0 a := by
  induction l₁ with
  | nil => simp
  | cons x xs ih => simp [List.set, ih]

theorem map_const_eq_replicate {α β : Type} (l : List α) (b : β) :
    l.map (fun _ => b) = List.replicate l.length b := by
  induction l with
  | nil => simp
  | cons x xs ih => simp [List.replicate, ih]

/-! ### Lemmas for `findFirst?` -/

theorem findFirst?_some {α : Type} (p : α → Bool) (l : List α) (i : Nat) (d : α)
    (h : findFirst? p l = some i) :
    i < l.length ∧ p (l.getD i d) = true := by
  induction l generalizing i with
  | nil => simp [findFirst?] at h
  | cons x xs ih =>
    by_cases hx : p x
    · simp [findFirst?, hx] at h
      subst h
      simpa using hx
    · simp [findFirst?, hx] at h
      obtain ⟨j, hj, rfl⟩ := h
      obtain ⟨hlt, hp⟩ := ih j hj
      exact ⟨by simpa using Nat.succ_lt_succ hlt, by simpa using hp⟩

theorem findFirst?_congr {α : Type} (p : α → Bool) (d : α) (l l' : List α)
    (hlen : l.length = l'.length)
    (hk : ∀ k, k < l.length → p (l.getD k d) = p (l'.getD k d)) :
    findFirst? p l = findFirst? p l' := by
  induction l generalizing l' with
  | nil =>
    cases l' with
    | nil => rfl
    | cons y ys => simp at hlen
  | cons x xs ih =>
    cases l' with
    | nil => simp at hlen
    | cons y ys =>
      have h0 : p x = p y := by simpa using hk 0 (by simp)
      have hrest : findFirst? p xs = findFirst? p ys := by
        refine ih ys (by simpa using hlen) ?_
        intro k hklt
        simpa using hk (k + 1) (by simpa using Nat.succ_lt_succ hklt)
      simp [findFirst?, h0, hrest]

/-! ### Lemmas for `scanFree` / `find_free_block` -/

theorem scanFree_succ (bm : List Bool) (i m : Nat) :
    scanFree bm i (m + 1) =
      if bm.getD i true = true then scanFree bm (i + 1) m else some i := rfl

theorem scanFree_some (bm : List Bool) (i n b : Nat)
    (h : scanFree bm i n = some b) :
    i ≤ b ∧ b < i + n ∧ bm.getD b true = false := by
  induction n generalizing i with
  | zero => simp [scanFree] at h
  | succ m ih =>
    rw [scanFree_succ] at h
    by_cases hb : bm.getD i true = true
    · rw [if_pos hb] at h
      obtain ⟨h1, h2, h3⟩ := ih (i + 1) h
      exact ⟨by omega, by omega, h3⟩
    · rw [if_neg hb] at h
      have hbi : b = i := by
        have := Option.some.inj h
        omega
      subst hbi
      exact ⟨Nat.le_refl _, by omega, by simpa using hb⟩

theorem scanFree_isSome (bm : List Bool) (i n : Nat)
    (h : ∃ j, i ≤ j ∧ j < i + n ∧ bm.getD j true = false) :
    (scanFree bm i n).isSome := by
  induction n generalizing i with
  | zero =>
    obtain ⟨j, h1, h2, _⟩ := h
    omega
  | succ m ih =>
    rw [scanFree_succ]
    by_cases hb : bm.getD i true = true
    · rw [if_pos hb]
      refine ih (i + 1) ?_
      obtain ⟨j, h1, h2, h3⟩ := h
      have hij : i ≠ j := by
        intro he
        rw [he] at hb
        rw [h3] at hb
        exact Bool.false_ne_true hb
      exact ⟨j, by omega, by omega, h3⟩
    · rw [if_neg hb]
      rfl

theorem find_free_block_some (bm : List Bool) (b : Nat)
    (h : find_free_block bm = some b) :
    10 ≤ b ∧ b < MAX_BLOCKS ∧ bm.getD b true = false := by
  have := scanFree_some bm 10 (MAX_BLOCKS - 10) b h
  exact ⟨this.1, by omega, this.2.2⟩

theorem find_free_block_isSome (bm : List Bool) (b : Nat)
    (hb1 : 10 ≤ b) (hb2 : b < MAX_BLOCKS) (hb3 : bm.getD b true = false) :
    (find_free_block bm).isSome := by
  refine scanFree_isSome bm 10 (MAX_BLOCKS - 10) ⟨b, hb1, by omega, hb3⟩

/-! ### Lemmas for `clearAll` -/

theorem clearAll_length (bs : List Nat) (bm : List Bool) :
    (clearAll bs bm).length = bm.length := by
  induction bs generalizing bm with
  | nil => rfl
  | cons x xs ih =>
    simp only [clearAll, List.foldl_cons]
    rw [show (xs.foldl (fun acc b => acc.set b false) (bm.set x false)) =
      clearAll xs (bm.set x false) from rfl, ih]
    simp

theorem clearAll_getD (bs : List Nat) (bm : List Bool) (b : Nat)
    (hin : ∀ x ∈ bs, x < bm.length) :
    (clearAll bs bm).getD b true =
      (if b ∈ bs then false else bm.getD b true) := by
  induction bs generalizing bm with
  | nil => simp [clearAll]
  | cons x xs ih =>
    have hstep : clearAll (x :: xs) bm = clearAll xs (bm.set x false) := rfl
    rw [hstep, ih (bm.set x false) (by
      intro y hy
      rw [List.length_set]
      exact hin y (List.mem_cons_of_mem x hy))]
    by_cases hbxs : b ∈ xs
    · simp [hbxs, List.mem_cons]
    · by_cases hbx : b = x
      · subst hbx
        simp only [List.mem_cons, true_or, if_true, hbxs, if_false]
        rw [getD_set_self bm b false true (hin b (List.mem_cons_self b xs))]
      · have : b ∉ (x :: xs) := by
          simp [List.mem_cons, hbx, hbxs]
        simp only [hbxs, if_false, this, if_false]
        rw [getD_set_ne bm x b false true (fun he => hbx he.symm)]

/-! ### Decomposition lemmas for `usedBlocks` / `usedCount` -/

theorem usedBlocks_append (l₁ l₂ : List Inode) :
    usedBlocks (l₁ ++ l₂) = usedBlocks l₁ ++ usedBlocks l₂ := by
  induction l₁ with
  | nil => simp [usedBlocks]
  | cons x xs ih => simp [usedBlocks, ih]

theorem usedCount_append (l₁ l₂ : List Inode) :
    usedCount (l₁ ++ l₂) = usedCount l₁ + usedCount l₂ := by
  induction l₁ with
  | nil => simp [usedCount]
  | cons x xs ih => simp [usedCount, ih]; omega

theorem usedBlocks_decomp (l : List Inode) (i : Nat) (h : i < l.length) :
    usedBlocks l =
      usedBlocks (l.take i) ++ entryBlocks (l.getD i emptyInode) ++
        usedBlocks (l.drop (i + 1)) := by
  induction l generalizing i with
  | nil => simp at h
  | cons x xs ih =>
    cases i with
    | zero => simp [usedBlocks]
    | succ n =>
      simp only [List.take_succ_cons, List.drop_succ_cons, List.getD_cons_succ]
      rw [show usedBlocks (x :: xs) = entryBlocks x ++ usedBlocks xs from rfl]
      rw [show usedBlocks (x :: xs.take n) = entryBlocks x ++ usedBlocks (xs.take n) from rfl]
      rw [ih n (by simpa using h)]
      simp [List.append_assoc]

theorem usedBlocks_set (l : List Inode) (i : Nat) (x : Inode) (h : i < l.length) :
    usedBlocks (l.set i x) =
      usedBlocks (l.take i) ++ entryBlocks x ++ usedBlocks (l.drop (i + 1)) := by
  have hlen : i < (l.set i x).length := by simpa using h
  rw [usedBlocks_decomp (l.set i x) i hlen]
  rw [take_set_self, drop_set_succ, getD_set_self l i x emptyInode h]

theorem usedCount_decomp (l : List Inode) (i : Nat) (h : i < l.length) :
    usedCount l =
      usedCount (l.take i) + (if (l.getD i emptyInode).used then 1 else 0) +
        usedCount (l.drop (i + 1)) := by
  induction l generalizing i with
  | nil => simp at h
  | cons x xs ih =>
    cases i with
    | zero => simp [usedCount]
    | succ n =>
      simp only [List.take_succ_cons, List.drop_succ_cons, List.getD_cons_succ]
      rw [show usedCount (x :: xs) = (if x.used then 1 else 0) + usedCount xs from rfl]
      rw [show usedCount (x :: xs.take n) =
        (if x.used then 1 else 0) + usedCount (xs.take n) from rfl]
      rw [ih n (by simpa using h)]
      omega

theorem usedCount_set (l : List Inode) (i : Nat) (x : Inode) (h : i < l.length) :
    usedCount (l.set i x) =
      usedCount (l.take i) + (if x.used then 1 else 0) +
        usedCount (l.drop (i + 1)) := by
  have hlen : i < (l.set i x).length := by simpa using h
  rw [usedCount_decomp (l.set i x) i hlen]
  rw [take_set_self, drop_set_succ, getD_set_self l i x emptyInode h]

theorem totalNzPtrs_eq_length_usedBlocks (l : List Inode) :
    totalNzPtrs l = (usedBlocks l).length := by
  induction l with
  | nil => rfl
  | cons x xs ih =>
    simp only [totalNzPtrs, usedBlocks, List.length_append, ih, entryBlocks]
    by_cases hx : x.used <;> simp [hx]

theorem mem_usedBlocks_of_getD (l : List Inode) (k : Nat) (b : Nat)
    (hk : k < l.length) (hu : (l.getD k emptyInode).used = true)
    (hb : b ∈ blocksOf (l.getD k emptyInode)) : b ∈ usedBlocks l := by
  induction l generalizing k with
  | nil => simp at hk
  | cons x xs ih =>
    cases k with
    | zero =>
      simp only [List.getD_cons_zero] at hu hb
      simp [usedBlocks, entryBlocks, hu, hb]
    | succ n =>
      simp only [List.getD_cons_succ] at hu hb
      have := ih n (by simpa using hk) hu hb
      simp [usedBlocks, this]

theorem forall_mem_set {α : Type} (l : List α) (i : Nat) (a : α) (P : α → Prop)
    (hl : ∀ x ∈ l, P x) (ha : P a) : ∀ x ∈ l.set i a, P x := by
  induction l generalizing i with
  | nil => simp
  | cons y ys ih =>
    cases i with
    | zero =>
      intro x hx
      rcases List.mem_cons.mp hx with h | h
      · exact h ▸ ha
      · exact hl x (List.mem_cons_of_mem y h)
    | succ n =>
      intro x hx
      rcases List.mem_cons.mp hx with h | h
      · exact h ▸ hl y (List.mem_cons_self y ys)
      · exact ih n (fun z hz => hl z (List.mem_cons_of_mem y hz)) x h

/-! ### Soundness of the lookup scans -/

theorem find_inode_some (inodes : List Inode) (f : String) (idx : Nat)
    (h : find_inode inodes f = some idx) :
    idx < inodes.length ∧ (inodes.getD idx emptyInode).used = true ∧
      (inodes.getD idx emptyInode).name = f := by
  obtain ⟨hlt, hp⟩ := findFirst?_some _ inodes idx emptyInode h
  refine ⟨hlt, ?_, ?_⟩
  · exact (Bool.and_eq_true_iff.mp hp).1
  · exact eq_of_beq (Bool.and_eq_true_iff.mp hp).2

theorem find_free_inode_some (inodes : List Inode) (idx : Nat)
    (h : find_free_inode inodes = some idx) :
    idx < inodes.length ∧ (inodes.getD idx emptyInode).used = false := by
  obtain ⟨hlt, hp⟩ := findFirst?_some _ inodes idx emptyInode h
  refine ⟨hlt, ?_⟩
  simpa using hp

theorem getD_mem {α : Type} (l : List α) (i : Nat) (d : α) (h : i < l.length) :
    l.getD i d ∈ l := by
  induction l generalizing i with
  | nil => simp at h
  | cons x xs ih =>
    cases i with
    | zero => simp
    | succ n =>
      simp only [List.getD_cons_succ]
      exact List.mem_cons_of_mem x (ih n (by simpa using h))

theorem filter_nz_replicate_zero (n : Nat) :
    (List.replicate n (0 : Nat)).filter (fun b => b != 0) = [] := by
  induction n with
  | zero => rfl
  | succ m ih => simp [List.replicate, ih]

/-! ### Nodup surgery on a middle segment -/

theorem nodup_replace_middle {α : Type} {A B C B' : List α}
    (h : (A ++ B ++ C).Nodup) (hB' : B'.Nodup)
    (hsub : ∀ x ∈ B', x ∈ B ∨ x ∉ A ++ B ++ C) :
    (A ++ B' ++ C).Nodup := by
  rw [List.nodup_append, List.nodup_append] at h
  obtain ⟨⟨hA, hB, hAB⟩, hC, hABC⟩ := h
  rw [List.nodup_append, List.nodup_append]
  refine ⟨⟨hA, hB', ?_⟩, hC, ?_⟩
  · intro x hxA hxB'
    rcases hsub x hxB' with hxB | hfresh
    · exact hAB hxA hxB
    · exact hfresh (by simp [hxA])
  · intro x hx hxC
    rcases List.mem_append.mp hx with hxA | hxB'
    · exact hABC (by simp [hxA]) hxC
    · rcases hsub x hxB' with hxB | hfresh
      · exact hABC (by simp [hxB]) hxC
      · exact hfresh (by simp [hxC])

theorem nodup_middle_facts {α : Type} {A B C : List α}
    (h : (A ++ B ++ C).Nodup) :
    B.Nodup ∧ (∀ x ∈ B, x ∉ A) ∧ (∀ x ∈ B, x ∉ C) := by
  rw [List.nodup_append, List.nodup_append] at h
  obtain ⟨⟨hA, hB, hAB⟩, hC, hABC⟩ := h
  refine ⟨hB, ?_, ?_⟩
  · intro x hxB hxA
    exact hAB hxA hxB
  · intro x hxB hxC
    exact hABC (by simp [hxB]) hxC

/-! ### Result characterization: `fs_create` / `fs_delete` -/

theorem fs_create_state (s : Sys) (fn : Option String) :
    (fs_create s fn).2 = s ∨
    ∃ f idx, fn = some f ∧ idx < s.inodes.length ∧
      (s.inodes.getD idx emptyInode).used = false ∧
      (fs_create s fn).2 = { s with
        inodes := s.inodes.set idx
          { used := true, name := f, size := 0,
            blocks := List.replicate MAX_DIRECT_BLOCKS 0 },
        sb := { s.sb with free_inodes := s.sb.free_inodes - 1 } } := by
  unfold fs_create
  split
  · exact Or.inl rfl
  · split
    · exact Or.inl rfl
    · rename_i f
      split
      · exact Or.inl rfl
      · split
        · exact Or.inl rfl
        · split
          · exact Or.inl rfl
          · rename_i idx heq
            obtain ⟨hlt, hun⟩ := find_free_inode_some s.inodes idx heq
            exact Or.inr ⟨f, idx, rfl, hlt, hun, rfl⟩

theorem fs_delete_state (s : Sys) (fn : Option String) :
    (fs_delete s fn).2 = s ∨
    ∃ f idx, fn = some f ∧ find_inode s.inodes f = some idx ∧
      (fs_delete s fn).2 = { s with
        bitmap := clearAll (blocksOf (s.inodes.getD idx emptyInode)) s.bitmap,
        sb := { s.sb with
                free_blocks := s.sb.free_blocks +
                  ((blocksOf (s.inodes.getD idx emptyInode)).length : Int),
                free_inodes := s.sb.free_inodes + 1 },
        inodes := s.inodes.set idx
          { used := false, name := "", size := 0,
            blocks := (s.inodes.getD idx emptyInode).blocks.map (fun _ => 0) } } := by
  unfold fs_delete
  split
  · exact Or.inl rfl
  · split
    · exact Or.inl rfl
    · rename_i f
      split
      · exact Or.inl rfl
      · split
        · exact Or.inl rfl
        · rename_i idx heq
          exact Or.inr ⟨f, idx, rfl, heq, rfl⟩

/-! ### Invariant preservation: `fs_create` -/

theorem sessionInv_create (s : Sys) (fn : Option String) (h : SessionInv s) :
    SessionInv (fs_create s fn).2 := by
  rcases fs_create_state s fn with hres | ⟨f, idx, _, hlt, hunused, hres⟩
  · rw [hres]
    exact h
  · rw [hres]
    set x : Inode :=
      { used := true, name := f, size := 0,
        blocks := List.replicate MAX_DIRECT_BLOCKS 0 } with hx
    have hentry_new : entryBlocks x = [] := by
      simp [entryBlocks, hx, blocksOf, filter_nz_replicate_zero]
    have hentry_old : entryBlocks (s.inodes.getD idx emptyInode) = [] := by
      unfold entryBlocks
      rw [hunused]
      simp
    have hU : usedBlocks (s.inodes.set idx x) = usedBlocks s.inodes := by
      rw [usedBlocks_set s.inodes idx x hlt,
        usedBlocks_decomp s.inodes idx hlt, hentry_new, hentry_old]
    have hUC : usedCount (s.inodes.set idx x) = usedCount s.inodes + 1 := by
      rw [usedCount_set s.inodes idx x hlt,
        usedCount_decomp s.inodes idx hlt, hunused]
      simp only [hx, Bool.false_eq_true, if_false, if_true]
      omega
    refine ⟨?_, ?_, ?_, ?_, ?_, ?_, ?_, ?_, ?_, ?_, ?_⟩
    · exact h.hbml
    · exact h.hfdl
    · refine forall_mem_set s.inodes idx x _ h.hblen ?_
      simp [hx]
    · intro b hb
      rw [hU] at hb
      exact h.hrange b hb
    · show (usedBlocks (s.inodes.set idx x)).Nodup
      rw [hU]
      exact h.hnodup
    · intro b hb
      show s.bitmap.getD b true = true ↔ b < 10 ∨ b ∈ usedBlocks (s.inodes.set idx x)
      rw [hU]
      exact h.hbm b hb
    · show s.sb.free_blocks = ((MAX_BLOCKS : Int) - 10) - (usedBlocks (s.inodes.set idx x)).length
      rw [hU]
      exact h.hfb
    · show s.sb.free_inodes - 1 = (MAX_FILES : Int) - usedCount (s.inodes.set idx x)
      rw [hUC]
      have hfi := h.hfi
      omega
    · exact h.htb
    · exact h.hbs
    · exact h.hti

/-! ### Invariant preservation: `fs_delete` -/

theorem sessionInv_delete (s : Sys) (fn : Option String) (h : SessionInv s) :
    SessionInv (fs_delete s fn).2 := by
  rcases fs_delete_state s fn with hres | ⟨f, idx, _, hfind, hres⟩
  · rw [hres]
    exact h
  · rw [hres]
    obtain ⟨hlt, hused, _⟩ := find_inode_some s.inodes f idx hfind
    set ino : Inode := s.inodes.getD idx emptyInode with hino
    set B : List Nat := blocksOf ino with hB
    set T : List Nat := usedBlocks (s.inodes.take idx) with hT
    set D : List Nat := usedBlocks (s.inodes.drop (idx + 1)) with hD
    have hentryino : entryBlocks ino = B := by
      simp [entryBlocks, hused, hB]
    have hdecomp : usedBlocks s.inodes = T ++ B ++ D := by
      rw [usedBlocks_decomp s.inodes idx hlt, ← hino, hentryino]
    set x : Inode :=
      { used := false, name := "", size := 0,
        blocks := ino.blocks.map (fun _ => 0) } with hx
    have hentry_new : entryBlocks x = [] := by
      simp [entryBlocks, hx]
    have hU : usedBlocks (s.inodes.set idx x) = T ++ D := by
      rw [usedBlocks_set s.inodes idx x hlt, hentry_new]
      simp
    have hUC : usedCount (s.inodes.set idx x) = usedCount s.inodes - 1 ∧
        1 ≤ usedCount s.inodes := by
      constructor
      · rw [usedCount_set s.inodes idx x hlt,
          usedCount_decomp s.inodes idx hlt, ← hino, hused]
        simp [hx]
      · rw [usedCount_decomp s.inodes idx hlt, ← hino, hused]
        simp only [if_true]
        omega
    have hBrange : ∀ b ∈ B, 10 ≤ b ∧ b < MAX_BLOCKS := by
      intro b hb
      refine h.hrange b ?_
      rw [hdecomp]
      simp [hb]
    have hnf := nodup_middle_facts (hdecomp ▸ h.hnodup)
    refine ⟨?_, ?_, ?_, ?_, ?_, ?_, ?_, ?_, ?_, ?_, ?_⟩
    · show (clearAll B s.bitmap).length = MAX_BLOCKS
      rw [clearAll_length]
      exact h.hbml
    · exact h.hfdl
    · refine forall_mem_set s.inodes idx x _ h.hblen ?_
      have hmem : ino ∈ s.inodes := getD_mem s.inodes idx emptyInode hlt
      simp only [hx, List.length_map]
      exact h.hblen ino hmem
    · intro b hb
      rw [hU] at hb
      refine h.hrange b ?_
      rw [hdecomp]
      rcases List.mem_append.mp hb with h1 | h1 <;> simp [h1]
    · show (usedBlocks (s.inodes.set idx x)).Nodup
      rw [hU]
      have hrep := nodup_replace_middle
        (hdecomp ▸ h.hnodup) List.nodup_nil (by simp)
      simpa using hrep
    · intro b hb
      show (clearAll B s.bitmap).getD b true = true ↔
        b < 10 ∨ b ∈ usedBlocks (s.inodes.set idx x)
      have hblen2 : ∀ y ∈ B, y < s.bitmap.length := by
        intro y hy
        rw [h.hbml]
        exact (hBrange y hy).2
      rw [clearAll_getD B s.bitmap b hblen2, hU]
      by_cases hbB : b ∈ B
      · simp only [hbB, if_true]
        have h10 : ¬ b < 10 := by
          have := (hBrange b hbB).1
          omega
        have hnT : b ∉ T := hnf.2.1 b hbB
        have hnD : b ∉ D := hnf.2.2 b hbB
        constructor
        · intro hfalse
          exact absurd hfalse (by simp)
        · intro hcase
          rcases hcase with h1 | h1
          · omega
          · rcases List.mem_append.mp h1 with h2 | h2
            · exact absurd h2 hnT
            · exact absurd h2 hnD
      · simp only [hbB, if_false]
        rw [h.hbm b hb, hdecomp]
        constructor
        · intro hcase
          rcases hcase with h1 | h1
          · exact Or.inl h1
          · refine Or.inr ?_
            rcases List.mem_append.mp h1 with h2 | h2
            · rcases List.mem_append.mp h2 with h3 | h3
              · simp [h3]
              · exact absurd h3 hbB
            · simp [h2]
        · intro hcase
          rcases hcase with h1 | h1
          · exact Or.inl h1
          · refine Or.inr ?_
            rcases List.mem_append.mp h1 with h2 | h2
            · simp [h2]
            · simp [h2]
    · show s.sb.free_blocks + (B.length : Int) =
        ((MAX_BLOCKS : Int) - 10) - (usedBlocks (s.inodes.set idx x)).length
      rw [hU]
      have hlenU : (usedBlocks s.inodes).length = (T.length + B.length) + D.length := by
        rw [hdecomp]
        simp only [List.length_append]
      have hfb := h.hfb
      rw [hlenU] at hfb
      simp only [List.length_append]
      omega
    · show s.sb.free_inodes + 1 = (MAX_FILES : Int) - usedCount (s.inodes.set idx x)
      rw [hUC.1]
      have h1 := hUC.2
      have hfi := h.hfi
      omega
    · exact h.htb
    · exact h.hbs
    · exact h.hti

/-! ### Helper lemmas for the write path -/

theorem filter_nz_append_replicate (bs : List Nat) (k : Nat) (h0 : 0 ∉ bs) :
    (bs ++ List.replicate k 0).filter (fun b => b != 0) = bs := by
  rw [List.filter_append, filter_nz_replicate_zero, List.append_nil]
  refine List.filter_eq_self.mpr ?_
  intro a ha
  simp only [bne_iff_ne, ne_eq, decide_eq_true_eq]
  intro hz
  exact h0 (hz ▸ ha)

theorem set_append_replicate (bs : List Nat) (m : Nat) (b : Nat) (hm : 1 ≤ m) :
    (bs ++ List.replicate m 0).set bs.length b =
      (bs ++ [b]) ++ List.replicate (m - 1) 0 := by
  rw [set_append_len]
  cases m with
  | zero => omega
  | succ k =>
    simp only [List.replicate, List.set_cons_zero, Nat.succ_sub_one]
    simp [List.append_assoc]

theorem exists_free_bit (t : Sys) (h : SessionInv t)
    (hfree : 0 < t.sb.free_blocks) :
    ∃ b, 10 ≤ b ∧ b < MAX_BLOCKS ∧ t.bitmap.getD b true = false := by
  by_contra hno
  push_neg at hno
  have hsub : List.range' 10 (MAX_BLOCKS - 10) ⊆ usedBlocks t.inodes := by
    intro x hx
    have hmem := List.mem_range'_1.mp hx
    have hbit : t.bitmap.getD x true = true := by
      have := hno x hmem.1 (by omega)
      cases hget : t.bitmap.getD x true
      · exact absurd hget this
      · rfl
    have := (h.hbm x (by omega)).mp hbit
    rcases this with h1 | h1
    · omega
    · exact h1
  have hle : (List.range' 10 (MAX_BLOCKS - 10)).length ≤ (usedBlocks t.inodes).length :=
    ((List.nodup_range' 10 (MAX_BLOCKS - 10)).subperm hsub).length_le
  rw [List.length_range'] at hle
  have hfb := h.hfb
  omega

theorem length_blocks_struct (bs : List Nat) (i : Nat) (h : bs.length = i)
    (hi : i ≤ MAX_DIRECT_BLOCKS) :
    (bs ++ List.replicate (MAX_DIRECT_BLOCKS - i) 0).length = MAX_DIRECT_BLOCKS := by
  simp [h]
  omega

/-- One iteration of the allocation loop preserves the session invariant. -/
theorem sessionInv_alloc_step (t : Sys) (idx b i : Nat)
    (nm : String) (szOld : Int) (bs : List Nat) (ch : List Nat)
    (h : SessionInv t) (hidx : idx < t.inodes.length)
    (hentry : t.inodes.getD idx emptyInode =
      { used := true, name := nm, size := szOld,
        blocks := bs ++ List.replicate (MAX_DIRECT_BLOCKS - i) 0 })
    (hbslen : bs.length = i) (hi : i < MAX_DIRECT_BLOCKS) (h0 : 0 ∉ bs)
    (hb10 : 10 ≤ b) (hbM : b < MAX_BLOCKS)
    (hbfree : t.bitmap.getD b true = false) :
    SessionInv { t with
      bitmap := t.bitmap.set b true,
      sb := { t.sb with free_blocks := t.sb.free_blocks - 1 },
      inodes := t.inodes.set idx
        { (t.inodes.getD idx emptyInode) with
          blocks := (t.inodes.getD idx emptyInode).blocks.set i b },
      fdata := t.fdata.set b ch } := by
  have hbnotU : b ∉ usedBlocks t.inodes := by
    intro hmem
    have := (h.hbm b hbM).mpr (Or.inr hmem)
    rw [hbfree] at this
    exact Bool.false_ne_true this
  have hbne0 : b ≠ 0 := by omega
  set T : List Nat := usedBlocks (t.inodes.take idx) with hT
  set D : List Nat := usedBlocks (t.inodes.drop (idx + 1)) with hD
  have hentryB : entryBlocks (t.inodes.getD idx emptyInode) = bs := by
    rw [hentry]
    simp only [entryBlocks, if_true, blocksOf]
    exact filter_nz_append_replicate bs _ h0
  have hdecomp : usedBlocks t.inodes = T ++ bs ++ D := by
    rw [usedBlocks_decomp t.inodes idx hidx, hentryB]
  set x : Inode :=
    { (t.inodes.getD idx emptyInode) with
      blocks := (t.inodes.getD idx emptyInode).blocks.set i b } with hx
  have hxblocks : x.blocks = (bs ++ [b]) ++ List.replicate (MAX_DIRECT_BLOCKS - i - 1) 0 := by
    rw [hx]
    simp only [hentry]
    rw [← hbslen]
    exact set_append_replicate bs (MAX_DIRECT_BLOCKS - bs.length) b (by omega)
  have hxused : x.used = true := by
    rw [hx]
    simp only [hentry]
  have hb0b : 0 ∉ bs ++ [b] := by
    intro hmem
    rcases List.mem_append.mp hmem with h1 | h1
    · exact h0 h1
    · simp at h1
      omega
  have hentryx : entryBlocks x = bs ++ [b] := by
    show (if x.used = true then blocksOf x else []) = bs ++ [b]
    rw [if_pos hxused]
    show List.filter (fun y => y != 0) x.blocks = bs ++ [b]
    rw [show x.blocks =
      (bs ++ [b]) ++ List.replicate (MAX_DIRECT_BLOCKS - i - 1) 0 from hxblocks]
    exact filter_nz_append_replicate (bs ++ [b]) _ hb0b
  have hU : usedBlocks (t.inodes.set idx x) = T ++ (bs ++ [b]) ++ D := by
    rw [usedBlocks_set t.inodes idx x hidx, hentryx]
  have hnf := nodup_middle_facts (hdecomp ▸ h.hnodup)
  have hbnotbs : b ∉ bs := by
    intro hmem
    refine hbnotU ?_
    rw [hdecomp]
    simp [hmem]
  have hbnotT : b ∉ T := by
    intro hmem
    refine hbnotU ?_
    rw [hdecomp]
    simp [hmem]
  have hbnotD : b ∉ D := by
    intro hmem
    refine hbnotU ?_
    rw [hdecomp]
    simp [hmem]
  have hUlen : (T ++ (bs ++ [b]) ++ D).length = (usedBlocks t.inodes).length + 1 := by
    rw [hdecomp]
    simp
    omega
  refine ⟨?_, ?_, ?_, ?_, ?_, ?_, ?_, ?_, ?_, ?_, ?_⟩
  · show (t.bitmap.set b true).length = MAX_BLOCKS
    rw [List.length_set]
    exact h.hbml
  · show (t.fdata.set b ch).length = MAX_BLOCKS
    rw [List.length_set]
    exact h.hfdl
  · refine forall_mem_set t.inodes idx x _ h.hblen ?_
    rw [hxblocks]
    simp
    omega
  · intro y hy
    rw [hU] at hy
    rcases List.mem_append.mp hy with h1 | h1
    · rcases List.mem_append.mp h1 with h2 | h2
      · refine h.hrange y ?_
        rw [hdecomp]
        simp [h2]
      · rcases List.mem_append.mp h2 with h3 | h3
        · refine h.hrange y ?_
          rw [hdecomp]
          simp [h3]
        · simp at h3
          subst h3
          exact ⟨hb10, hbM⟩
    · refine h.hrange y ?_
      rw [hdecomp]
      simp [h1]
  · show (usedBlocks (t.inodes.set idx x)).Nodup
    rw [hU]
    refine nodup_replace_middle (hdecomp ▸ h.hnodup) ?_ ?_
    · rw [List.nodup_append]
      exact ⟨hnf.1, List.nodup_singleton b, by
        intro y hy hyb
        simp at hyb
        subst hyb
        exact hbnotbs hy⟩
    · intro y hy
      rcases List.mem_append.mp hy with h1 | h1
      · exact Or.inl h1
      · simp at h1
        subst h1
        refine Or.inr ?_
        rw [← hdecomp]
        exact hbnotU
  · intro y hyM
    show (t.bitmap.set b true).getD y true = true ↔
      y < 10 ∨ y ∈ usedBlocks (t.inodes.set idx x)
    rw [hU]
    by_cases hyb : y = b
    · subst hyb
      rw [getD_set_self t.bitmap y true true (by rw [h.hbml]; exact hbM)]
      constructor
      · intro _
        refine Or.inr ?_
        simp
      · intro _
        rfl
    · rw [getD_set_ne t.bitmap b y true true (fun he => hyb he.symm)]
      rw [h.hbm y hyM, hdecomp]
      constructor
      · intro hcase
        rcases hcase with h1 | h1
        · exact Or.inl h1
        · refine Or.inr ?_
          rcases List.mem_append.mp h1 with h2 | h2
          · rcases List.mem_append.mp h2 with h3 | h3 <;> simp [h3]
          · simp [h2]
      · intro hcase
        rcases hcase with h1 | h1
        · exact Or.inl h1
        · refine Or.inr ?_
          rcases List.mem_append.mp h1 with h2 | h2
          · rcases List.mem_append.mp h2 with h3 | h3
            · simp [h3]
            · rcases List.mem_append.mp h3 with h4 | h4
              · simp [h4]
              · simp at h4
                exact absurd h4 hyb
          · simp [h2]
  · show t.sb.free_blocks - 1 =
      ((MAX_BLOCKS : Int) - 10) - (usedBlocks (t.inodes.set idx x)).length
    rw [hU, hUlen]
    have hfb := h.hfb
    push_cast
    push_cast at hfb
    omega
  · show t.sb.free_inodes = (MAX_FILES : Int) - usedCount (t.inodes.set idx x)
    have hUC : usedCount (t.inodes.set idx x) = usedCount t.inodes := by
      rw [usedCount_set t.inodes idx x hidx,
        usedCount_decomp t.inodes idx hidx, hxused]
    rw [hUC]
    exact h.hfi
  · exact h.htb
  · exact h.hbs
  · exact h.hti

/-- Full specification of the allocation loop when enough free blocks exist
and the needed count fits the direct-block array: it returns normally,
preserves the session invariant, fills the inode's pointer slots with fresh
distinct data blocks carrying the data chunks, and touches no disk block that
was marked used on entry. -/
theorem allocLoop_sound (idx : Nat) (d : List Nat) (sz needed : Nat)
    (nm : String) (szOld : Int) :
    ∀ n i bs t, needed - i = n →
      SessionInv t →
      idx < t.inodes.length →
      t.inodes.getD idx emptyInode =
        { used := true, name := nm, size := szOld,
          blocks := bs ++ List.replicate (MAX_DIRECT_BLOCKS - i) 0 } →
      bs.length = i → i ≤ needed → needed ≤ MAX_DIRECT_BLOCKS →
      ((needed : Int) - (i : Int)) ≤ t.sb.free_blocks →
      0 ∉ bs →
      ∃ cs s₂, allocLoop idx d sz needed i t = .ret 0 s₂ ∧
        SessionInv s₂ ∧
        cs.length = needed - i ∧ 0 ∉ cs ∧
        s₂.inodes.getD idx emptyInode =
          { used := true, name := nm, size := szOld,
            blocks := (bs ++ cs) ++ List.replicate (MAX_DIRECT_BLOCKS - needed) 0 } ∧
        s₂.inodes.length = t.inodes.length ∧
        (∀ k, k ≠ idx → s₂.inodes.getD k emptyInode = t.inodes.getD k emptyInode) ∧
        (∀ j, ∀ hj : j < cs.length,
          s₂.fdata.getD (cs.get ⟨j, hj⟩) [] = chunkAt d sz (i + j) needed) ∧
        (∀ b, b < MAX_BLOCKS → t.bitmap.getD b true = true →
          s₂.fdata.getD b [] = t.fdata.getD b [] ∧ s₂.bitmap.getD b true = true) ∧
        s₂.mounted = t.mounted ∧ s₂.fileExists = t.fileExists ∧ s₂.fsb = t.fsb ∧
        s₂.fbitmap = t.fbitmap ∧ s₂.finodes = t.finodes ∧ s₂.flen = t.flen := by
  intro n
  induction n with
  | zero =>
    intro i bs t hn hInv hidx hentry hbslen hile hcap hfree h0
    have hie : i = needed := by omega
    subst hie
    refine ⟨[], t, ?_, hInv, by simp, by simp, ?_, rfl, fun k _ => rfl, ?_, ?_,
      rfl, rfl, rfl, rfl, rfl, rfl⟩
    · rw [allocLoop]
      rw [if_neg (by omega)]
    · rw [hentry]
      simp
    · intro j hj
      simp at hj
    · intro b hbM hbit
      exact ⟨rfl, hbit⟩
  | succ k ih =>
    intro i bs t hn hInv hidx hentry hbslen hile hcap hfree h0
    have hilt : i < needed := by omega
    have hifree : 0 < t.sb.free_blocks := by omega
    obtain ⟨bh, hbh1, hbh2, hbh3⟩ := exists_free_bit t hInv hifree
    have hsome : (find_free_block t.bitmap).isSome =  true :=
      find_free_block_isSome t.bitmap bh hbh1 hbh2 hbh3
    obtain ⟨b, hfbk⟩ := Option.isSome_iff_exists.mp hsome
    obtain ⟨hble, hbM, hbfree⟩ := find_free_block_some t.bitmap b hfbk
    have hiM : i < MAX_DIRECT_BLOCKS := by omega
    have hb0b : 0 ∉ bs ++ [b] := by
      intro hmem
      rcases List.mem_append.mp hmem with h1 | h1
      · exact h0 h1
      · simp at h1
        omega
    set ch : List Nat := chunkAt d sz i needed with hch
    set t' : Sys := { t with
      bitmap := t.bitmap.set b true,
      sb := { t.sb with free_blocks := t.sb.free_blocks - 1 },
      inodes := t.inodes.set idx
        { (t.inodes.getD idx emptyInode) with
          blocks := (t.inodes.getD idx emptyInode).blocks.set i b },
      fdata := t.fdata.set b ch } with ht'
    have hInv' : SessionInv t' :=
      sessionInv_alloc_step t idx b i nm szOld bs ch hInv hidx hentry hbslen
        hiM h0 hble hbM hbfree
    have hidx' : idx < t'.inodes.length := by
      show idx < (t.inodes.set idx _).length
      rw [List.length_set]
      exact hidx
    have hsetblocks : (bs ++ List.replicate (MAX_DIRECT_BLOCKS - i) 0).set i b =
        (bs ++ [b]) ++ List.replicate (MAX_DIRECT_BLOCKS - (i + 1)) 0 := by
      rw [← hbslen]
      rw [set_append_replicate bs (MAX_DIRECT_BLOCKS - bs.length) b (by omega)]
      rw [show MAX_DIRECT_BLOCKS - bs.length - 1 =
        MAX_DIRECT_BLOCKS - (bs.length + 1) by omega]
    have hentry' : t'.inodes.getD idx emptyInode =
        { used := true, name := nm, size := szOld,
          blocks := (bs ++ [b]) ++ List.replicate (MAX_DIRECT_BLOCKS - (i + 1)) 0 } := by
      show (t.inodes.set idx _).getD idx emptyInode = _
      rw [getD_set_self _ idx _ emptyInode hidx]
      simp only [hentry]
      rw [hsetblocks]
    have hfree' : ((needed : Int) - ((i + 1 : Nat) : Int)) ≤ t'.sb.free_blocks := by
      show _ ≤ t.sb.free_blocks - 1
      push_cast
      omega
    obtain ⟨cs', s₂, hloop, hInv₂, hcslen, h0cs, hentry₂, hlen₂, hframe₂,
      hcontent₂, hpres₂, hm₂, hfe₂, hfsb₂, hfbm₂, hfin₂, hflen₂⟩ :=
      ih (i + 1) (bs ++ [b]) t' (by omega) hInv' hidx' hentry'
        (by simp [hbslen]) (by omega) hcap hfree' hb0b
    have hbbml : b < t.bitmap.length := by
      rw [hInv.hbml]
      exact hbM
    have hbfdl : b < t.fdata.length := by
      rw [hInv.hfdl]
      exact hbM
    refine ⟨b :: cs', s₂, ?_, hInv₂, ?_, ?_, ?_, ?_, ?_, ?_, ?_, ?_, ?_, ?_,
      ?_, ?_, ?_⟩
    · rw [allocLoop]
      rw [if_pos hilt, hfbk]
      show (if MAX_DIRECT_BLOCKS ≤ i then WriteResult.oobIndex i else _) = _
      rw [if_neg (by omega)]
      exact hloop
    · simp only [List.length_cons, hcslen]
      omega
    · intro hmem
      rcases List.mem_cons.mp hmem with h1 | h1
      · omega
      · exact h0cs h1
    · rw [hentry₂]
      have happ : (bs ++ [b]) ++ cs' = bs ++ b :: cs' := by
        simp
      rw [happ]
    · rw [hlen₂]
      show (t.inodes.set idx _).length = t.inodes.length
      rw [List.length_set]
    · intro kk hkk
      rw [hframe₂ kk hkk]
      show (t.inodes.set idx _).getD kk emptyInode = t.inodes.getD kk emptyInode
      exact getD_set_ne t.inodes idx kk _ emptyInode (fun he => hkk he.symm)
    · intro j hj
      cases j with
      | zero =>
        have hb' : t'.bitmap.getD b true = true := by
          show (t.bitmap.set b true).getD b true = true
          rw [getD_set_self t.bitmap b true true hbbml]
        have := (hpres₂ b hbM hb').1
        rw [show ((b :: cs').get ⟨0, hj⟩) = b from rfl]
        rw [this]
        show (t.fdata.set b ch).getD b [] = chunkAt d sz (i + 0) needed
        rw [getD_set_self t.fdata b ch [] hbfdl]
        rw [hch, Nat.add_zero]
      | succ j' =>
        have hj' : j' < cs'.length := by
          simp at hj
          omega
        have hget : (b :: cs').get ⟨j' + 1, hj⟩ = cs'.get ⟨j', hj'⟩ := rfl
        rw [hget]
        rw [hcontent₂ j' hj']
        congr 1
        omega
    · intro b' hb'M hb'bit
      have hb'ne : b' ≠ b := by
        intro he
        rw [he, hbfree] at hb'bit
        exact Bool.false_ne_true hb'bit
      have hb'bit' : t'.bitmap.getD b' true = true := by
        show (t.bitmap.set b true).getD b' true = true
        rw [getD_set_ne t.bitmap b b' true true (fun he => hb'ne he.symm)]
        exact hb'bit
      obtain ⟨hfd, hbit₂⟩ := hpres₂ b' hb'M hb'bit'
      refine ⟨?_, hbit₂⟩
      rw [hfd]
      show (t.fdata.set b ch).getD b' [] = t.fdata.getD b' []
      exact getD_set_ne t.fdata b b' ch [] (fun he => hb'ne he.symm)
    · exact hm₂
    · exact hfe₂
    · exact hfsb₂
    · exact hfbm₂
    · exact hfin₂
    · exact hflen₂

/-- The free-old-blocks phase of `fs_write` preserves the invariant, leaves the
target inode used with all pointers cleared, credits the freed count, and
keeps every other slot, the data region, and the file untouched; bits of
blocks not owned by the target inode stay set. -/
theorem freeOld_spec (s : Sys) (idx : Nat) (h : SessionInv s)
    (hidx : idx < s.inodes.length)
    (hused : (s.inodes.getD idx emptyInode).used = true) :
    SessionInv (freeOld s idx) ∧
    (freeOld s idx).inodes.getD idx emptyInode =
      { used := true, name := (s.inodes.getD idx emptyInode).name,
        size := (s.inodes.getD idx emptyInode).size,
        blocks := List.replicate MAX_DIRECT_BLOCKS 0 } ∧
    (freeOld s idx).sb.free_blocks =
      s.sb.free_blocks + ((blocksOf (s.inodes.getD idx emptyInode)).length : Int) ∧
    (freeOld s idx).inodes.length = s.inodes.length ∧
    (∀ k, k ≠ idx →
      (freeOld s idx).inodes.getD k emptyInode = s.inodes.getD k emptyInode) ∧
    (freeOld s idx).fdata = s.fdata ∧
    (freeOld s idx).mounted = s.mounted ∧
    (freeOld s idx).fileExists = s.fileExists ∧
    (freeOld s idx).fsb = s.fsb ∧ (freeOld s idx).fbitmap = s.fbitmap ∧
    (freeOld s idx).finodes = s.finodes ∧ (freeOld s idx).flen = s.flen ∧
    (∀ b, b < MAX_BLOCKS → s.bitmap.getD b true = true →
      b ∉ blocksOf (s.inodes.getD idx emptyInode) →
      (freeOld s idx).bitmap.getD b true = true) := by
  set ino : Inode := s.inodes.getD idx emptyInode with hino
  set B : List Nat := blocksOf ino with hB
  set T : List Nat := usedBlocks (s.inodes.take idx) with hT
  set D : List Nat := usedBlocks (s.inodes.drop (idx + 1)) with hD
  have hentryino : entryBlocks ino = B := by
    simp [entryBlocks, hused, hB]
  have hdecomp : usedBlocks s.inodes = T ++ B ++ D := by
    rw [usedBlocks_decomp s.inodes idx hidx, ← hino, hentryino]
  have hblenino : ino.blocks.length = MAX_DIRECT_BLOCKS :=
    h.hblen ino (getD_mem s.inodes idx emptyInode hidx)
  set x : Inode := { ino with blocks := ino.blocks.map (fun _ => 0) } with hx
  have hxused : x.used = true := hused
  have hxblocks : x.blocks = List.replicate MAX_DIRECT_BLOCKS 0 := by
    show ino.blocks.map (fun _ => 0) = _
    rw [map_const_eq_replicate, hblenino]
  have hentry_new : entryBlocks x = [] := by
    show (if x.used = true then blocksOf x else []) = []
    rw [if_pos hxused]
    show List.filter (fun y => y != 0) x.blocks = []
    rw [hxblocks]
    exact filter_nz_replicate_zero MAX_DIRECT_BLOCKS
  have hU : usedBlocks (s.inodes.set idx x) = T ++ D := by
    rw [usedBlocks_set s.inodes idx x hidx, hentry_new]
    simp
  have hBrange : ∀ b ∈ B, 10 ≤ b ∧ b < MAX_BLOCKS := by
    intro b hb
    refine h.hrange b ?_
    rw [hdecomp]
    simp [hb]
  have hblen2 : ∀ y ∈ B, y < s.bitmap.length := by
    intro y hy
    rw [h.hbml]
    exact (hBrange y hy).2
  have hnf := nodup_middle_facts (hdecomp ▸ h.hnodup)
  have hfo : freeOld s idx = { s with
      bitmap := clearAll B s.bitmap,
      sb := { s.sb with free_blocks := s.sb.free_blocks + (B.length : Int) },
      inodes := s.inodes.set idx x } := rfl
  rw [hfo]
  refine ⟨?_, ?_, rfl, ?_, ?_, rfl, rfl, rfl, rfl, rfl, rfl, rfl, ?_⟩
  · refine ⟨?_, ?_, ?_, ?_, ?_, ?_, ?_, ?_, ?_, ?_, ?_⟩
    · show (clearAll B s.bitmap).length = MAX_BLOCKS
      rw [clearAll_length]
      exact h.hbml
    · exact h.hfdl
    · refine forall_mem_set s.inodes idx x _ h.hblen ?_
      rw [hxblocks]
      simp
    · intro b hb
      rw [hU] at hb
      refine h.hrange b ?_
      rw [hdecomp]
      rcases List.mem_append.mp hb with h1 | h1 <;> simp [h1]
    · show (usedBlocks (s.inodes.set idx x)).Nodup
      rw [hU]
      have hrep := nodup_replace_middle
        (hdecomp ▸ h.hnodup) List.nodup_nil (by simp)
      simpa using hrep
    · intro b hb
      show (clearAll B s.bitmap).getD b true = true ↔
        b < 10 ∨ b ∈ usedBlocks (s.inodes.set idx x)
      rw [clearAll_getD B s.bitmap b hblen2, hU]
      by_cases hbB : b ∈ B
      · simp only [hbB, if_true]
        have h10 : ¬ b < 10 := by
          have := (hBrange b hbB).1
          omega
        have hnT : b ∉ T := hnf.2.1 b hbB
        have hnD : b ∉ D := hnf.2.2 b hbB
        constructor
        · intro hfalse
          exact absurd hfalse (by simp)
        · intro hcase
          rcases hcase with h1 | h1
          · omega
          · rcases List.mem_append.mp h1 with h2 | h2
            · exact absurd h2 hnT
            · exact absurd h2 hnD
      · simp only [hbB, if_false]
        rw [h.hbm b hb, hdecomp]
        constructor
        · intro hcase
          rcases hcase with h1 | h1
          · exact Or.inl h1
          · refine Or.inr ?_
            rcases List.mem_append.mp h1 with h2 | h2
            · rcases List.mem_append.mp h2 with h3 | h3
              · simp [h3]
              · exact absurd h3 hbB
            · simp [h2]
        · intro hcase
          rcases hcase with h1 | h1
          · exact Or.inl h1
          · refine Or.inr ?_
            rcases List.mem_append.mp h1 with h2 | h2
            · simp [h2]
            · simp [h2]
    · show s.sb.free_blocks + (B.length : Int) =
        ((MAX_BLOCKS : Int) - 10) - (usedBlocks (s.inodes.set idx x)).length
      rw [hU]
      have hlenU : (usedBlocks s.inodes).length = (T.length + B.length) + D.length := by
        rw [hdecomp]
        simp only [List.length_append]
      have hfb := h.hfb
      rw [hlenU] at hfb
      simp only [List.length_append]
      omega
    · show s.sb.free_inodes = (MAX_FILES : Int) - usedCount (s.inodes.set idx x)
      have hUC : usedCount (s.inodes.set idx x) = usedCount s.inodes := by
        rw [usedCount_set s.inodes idx x hidx,
          usedCount_decomp s.inodes idx hidx, hxused]
      rw [hUC]
      exact h.hfi
    · exact h.htb
    · exact h.hbs
    · exact h.hti
  · show (s.inodes.set idx x).getD idx emptyInode = _
    rw [getD_set_self s.inodes idx x emptyInode hidx, hx, hused,
      map_const_eq_replicate, hblenino]
  · show (s.inodes.set idx x).length = s.inodes.length
    rw [List.length_set]
  · intro k hk
    show (s.inodes.set idx x).getD k emptyInode = s.inodes.getD k emptyInode
    exact getD_set_ne s.inodes idx k x emptyInode (fun he => hk he.symm)
  · intro b hbM hbit hnotB
    show (clearAll B s.bitmap).getD b true = true
    rw [clearAll_getD B s.bitmap b hblen2]
    rw [if_neg hnotB]
    exact hbit

/-! ### Reading back what the allocation loop wrote -/

theorem readLoop_zero (fdata : List (List Nat)) (l : List Nat) :
    readLoop fdata l 0 = [] := by
  cases l <;> rfl

theorem readLoop_cons (fdata : List (List Nat)) (b : Nat) (bs : List Nat)
    (r : Nat) :
    readLoop fdata (b :: bs) r =
      if r = 0 then []
      else if b = 0 then []
      else (padTo BLOCK_SIZE (fdata.getD b [])).take (min r BLOCK_SIZE) ++
        readLoop fdata bs (r - min r BLOCK_SIZE) := rfl

theorem take_chunkAt (d : List Nat) (sz j needed : Nat)
    (hpos : 0 < sz) (hneed : needed = (sz + BLOCK_SIZE - 1) / BLOCK_SIZE)
    (hd : d.length = sz) (hj : j < needed) :
    (chunkAt d sz j needed).take (min (sz - j * BLOCK_SIZE) BLOCK_SIZE) =
      (d.drop (j * BLOCK_SIZE)).take (min (sz - j * BLOCK_SIZE) BLOCK_SIZE) := by
  simp only [BLOCK_SIZE] at hneed ⊢
  set o : Nat := j * 4096 with ho
  have hdlen : (d.drop o).length = sz - o := by
    rw [List.length_drop, hd]
  by_cases hlast : j = needed - 1
  · have htw : (if j = needed - 1 then sz - j * 4096 else 4096) = sz - o := by
      rw [if_pos hlast, ho]
    have hle : sz - o ≤ 4096 := by
      rw [ho]
      rcases Nat.eq_zero_or_pos needed with h0 | h0
      · omega
      · have : j = needed - 1 := hlast
        omega
    show (padTo 4096 ((d.drop (j * 4096)).take (if j = needed - 1 then sz - j * 4096 else 4096))).take (min (sz - j * 4096) 4096) = _
    rw [htw]
    have hmin : min (sz - o) 4096 = sz - o := by omega
    rw [← ho, hmin]
    have hXlen : ((d.drop o).take (sz - o)).length = sz - o := by
      rw [List.length_take, hdlen]
      omega
    show (((d.drop o).take (sz - o)) ++
      List.replicate (4096 - ((d.drop o).take (sz - o)).length) 0).take (sz - o) = _
    rw [List.take_append_of_le_length (by omega)]
    rw [List.take_take]
    rw [Nat.min_self]
  · have htw : (if j = needed - 1 then sz - j * 4096 else 4096) = 4096 := by
      rw [if_neg hlast]
    have hgt : 4096 < sz - o := by
      rw [ho]
      have hj1 : j + 1 ≤ needed - 1 := by omega
      have : (j + 1) * 4096 ≤ (needed - 1) * 4096 := by
        exact Nat.mul_le_mul_right 4096 hj1
      have hlt : (needed - 1) * 4096 < sz := by omega
      omega
    show (padTo 4096 ((d.drop (j * 4096)).take (if j = needed - 1 then sz - j * 4096 else 4096))).take (min (sz - j * 4096) 4096) = _
    rw [htw]
    have hmin : min (sz - o) 4096 = 4096 := by omega
    rw [← ho, hmin]
    have hXlen : ((d.drop o).take 4096).length = 4096 := by
      rw [List.length_take, hdlen]
      omega
    show (((d.drop o).take 4096) ++
      List.replicate (4096 - ((d.drop o).take 4096).length) 0).take 4096 = _
    rw [List.take_append_of_le_length (by omega)]
    rw [List.take_take]
    rw [Nat.min_self]

theorem padTo_idem (n : Nat) (l : List Nat) : padTo n (padTo n l) = padTo n l := by
  unfold padTo
  have hz : n - (l ++ List.replicate (n - l.length) 0).length = 0 := by
    simp only [List.length_append, List.length_replicate]
    omega
  rw [hz]
  simp

theorem padTo_chunkAt (d : List Nat) (sz j needed : Nat) :
    padTo BLOCK_SIZE (chunkAt d sz j needed) = chunkAt d sz j needed := by
  unfold chunkAt
  exact padTo_idem _ _

theorem readLoop_reconstruct (fdata : List (List Nat)) (d : List Nat)
    (sz needed : Nat)
    (hpos : 0 < sz) (hneed : needed = (sz + BLOCK_SIZE - 1) / BLOCK_SIZE)
    (hd : d.length = sz) :
    ∀ cs j K, j ≤ needed → cs.length = needed - j → 0 ∉ cs →
      (∀ m, ∀ hm : m < cs.length,
        fdata.getD (cs.get ⟨m, hm⟩) [] = chunkAt d sz (j + m) needed) →
      readLoop fdata (cs ++ List.replicate K 0) (sz - j * BLOCK_SIZE) =
        d.drop (j * BLOCK_SIZE) := by
  intro cs
  induction cs with
  | nil =>
    intro j K hj hlen h0 hcont
    have hjn : j = needed := by
      simp at hlen
      omega
    have hz : sz - j * BLOCK_SIZE = 0 := by
      simp only [BLOCK_SIZE] at hneed ⊢
      subst hjn
      omega
    rw [hz, List.nil_append, readLoop_zero]
    have hdro : d.length ≤ j * BLOCK_SIZE := by
      simp only [BLOCK_SIZE] at hneed ⊢
      subst hjn
      omega
    rw [List.drop_eq_nil_of_le hdro]
  | cons b cs' ih =>
    intro j K hj hlen h0 hcont
    have hjlt : j < needed := by
      simp at hlen
      omega
    have hb0 : b ≠ 0 := by
      intro he
      exact h0 (by simp [he])
    have hrpos : 0 < sz - j * BLOCK_SIZE := by
      simp only [BLOCK_SIZE] at hneed ⊢
      have hj1 : j ≤ needed - 1 := by omega
      have hmul : j * 4096 ≤ (needed - 1) * 4096 :=
        Nat.mul_le_mul_right 4096 hj1
      have : (needed - 1) * 4096 < sz := by omega
      omega
    rw [List.cons_append, readLoop_cons, if_neg (by omega), if_neg hb0]
    have hcb : fdata.getD b [] = chunkAt d sz j needed := by
      have := hcont 0 (by simp)
      simpa using this
    rw [hcb, padTo_chunkAt]
    rw [take_chunkAt d sz j needed hpos hneed hd hjlt]
    have hrec : readLoop fdata (cs' ++ List.replicate K 0)
        (sz - (j + 1) * BLOCK_SIZE) = d.drop ((j + 1) * BLOCK_SIZE) := by
      refine ih (j + 1) K (by omega) (by simp at hlen ⊢; omega) ?_ ?_
      · intro hmem
        exact h0 (by simp [hmem])
      · intro m hm
        have hm' : m + 1 < (b :: cs').length := by
          simp at hm ⊢
          omega
        have := hcont (m + 1) hm'
        rw [show ((b :: cs').get ⟨m + 1, hm'⟩) = cs'.get ⟨m, hm⟩ from rfl] at this
        rw [this]
        congr 1
        omega
    have harith : sz - j * BLOCK_SIZE - min (sz - j * BLOCK_SIZE) BLOCK_SIZE =
        sz - (j + 1) * BLOCK_SIZE := by
      simp only [BLOCK_SIZE]
      omega
    rw [harith, hrec]
    have hlen_drop : (d.drop (j * BLOCK_SIZE)).length = sz - j * BLOCK_SIZE := by
      rw [List.length_drop, hd]
    have hdd : d.drop ((j + 1) * BLOCK_SIZE) = (d.drop (j * BLOCK_SIZE)).drop BLOCK_SIZE := by
      rw [List.drop_drop]
      rw [show j * BLOCK_SIZE + BLOCK_SIZE = (j + 1) * BLOCK_SIZE by
        simp only [BLOCK_SIZE]
        omega]
    rw [hdd]
    by_cases hc : BLOCK_SIZE ≤ sz - j * BLOCK_SIZE
    · rw [min_eq_right hc]
      exact List.take_append_drop BLOCK_SIZE _
    · push_neg at hc
      rw [min_eq_left (Nat.le_of_lt hc)]
      have htake : (d.drop (j * BLOCK_SIZE)).take (sz - j * BLOCK_SIZE) =
          d.drop (j * BLOCK_SIZE) := by
        rw [← hlen_drop]
        exact List.take_length _
      have hdropnil : (d.drop (j * BLOCK_SIZE)).drop BLOCK_SIZE = [] := by
        refine List.drop_eq_nil_of_le ?_
        rw [hlen_drop]
        exact Nat.le_of_lt hc
      rw [htake, hdropnil]
      simp

theorem entryBlocks_congr (x y : Inode) (hu : y.used = x.used)
    (hb : y.blocks = x.blocks) : entryBlocks y = entryBlocks x := by
  simp [entryBlocks, blocksOf, hu, hb]

/-- Replacing an inode by one with the same used flag and block list (only the
size or name fields differ) preserves the session invariant. -/
theorem sessionInv_set_same_blocks (s : Sys) (idx : Nat) (y : Inode)
    (h : SessionInv s) (hidx : idx < s.inodes.length)
    (hu : y.used = (s.inodes.getD idx emptyInode).used)
    (hb : y.blocks = (s.inodes.getD idx emptyInode).blocks) :
    SessionInv { s with inodes := s.inodes.set idx y } := by
  have hentry : entryBlocks y = entryBlocks (s.inodes.getD idx emptyInode) :=
    entryBlocks_congr _ y hu hb
  have hU : usedBlocks (s.inodes.set idx y) = usedBlocks s.inodes := by
    rw [usedBlocks_set s.inodes idx y hidx, hentry,
      ← usedBlocks_decomp s.inodes idx hidx]
  have hUC : usedCount (s.inodes.set idx y) = usedCount s.inodes := by
    rw [usedCount_set s.inodes idx y hidx,
      usedCount_decomp s.inodes idx hidx, hu]
  refine ⟨h.hbml, h.hfdl, ?_, ?_, ?_, ?_, ?_, ?_, h.htb, h.hbs, h.hti⟩
  · refine forall_mem_set s.inodes idx y _ h.hblen ?_
    rw [hb]
    exact h.hblen _ (getD_mem s.inodes idx emptyInode hidx)
  · intro b hbm
    rw [hU] at hbm
    exact h.hrange b hbm
  · show (usedBlocks (s.inodes.set idx y)).Nodup
    rw [hU]
    exact h.hnodup
  · intro b hbm
    show s.bitmap.getD b true = true ↔ b < 10 ∨ b ∈ usedBlocks (s.inodes.set idx y)
    rw [hU]
    exact h.hbm b hbm
  · show s.sb.free_blocks = ((MAX_BLOCKS : Int) - 10) - (usedBlocks (s.inodes.set idx y)).length
    rw [hU]
    exact h.hfb
  · show s.sb.free_inodes = (MAX_FILES : Int) - usedCount (s.inodes.set idx y)
    rw [hUC]
    exact h.hfi

/-- Successful `fs_write`: under the session invariant, for an existing file,
a positive size within the per-file cap, and enough free blocks, the call
returns 0; the target inode then carries fresh distinct data blocks holding
exactly the data chunks, every other inode slot is untouched, and every disk
block that was marked used and not owned by the target file keeps its
contents. -/
theorem fs_write_success (s : Sys) (f : String) (d : List Nat) (sizeN : Nat)
    (idx : Nat) (h : SessionInv s) (hm : s.mounted = true)
    (hflen : f.length < MAX_FILENAME)
    (hfind : find_inode s.inodes f = some idx)
    (hpos : 0 < sizeN) (hcap : sizeN ≤ MAX_DIRECT_BLOCKS * BLOCK_SIZE)
    (hfree : (((sizeN + BLOCK_SIZE - 1) / BLOCK_SIZE : Nat) : Int) ≤ s.sb.free_blocks) :
    ∃ cs s', fs_write s (some f) (some d) (sizeN : Int) = .ret 0 s' ∧
      SessionInv s' ∧
      cs.length = (sizeN + BLOCK_SIZE - 1) / BLOCK_SIZE ∧ 0 ∉ cs ∧
      s'.inodes.length = s.inodes.length ∧
      s'.inodes.getD idx emptyInode =
        { used := true, name := (s.inodes.getD idx emptyInode).name,
          size := (sizeN : Int),
          blocks := cs ++ List.replicate
            (MAX_DIRECT_BLOCKS - (sizeN + BLOCK_SIZE - 1) / BLOCK_SIZE) 0 } ∧
      (∀ k, k ≠ idx → s'.inodes.getD k emptyInode = s.inodes.getD k emptyInode) ∧
      (∀ j, ∀ hj : j < cs.length,
        s'.fdata.getD (cs.get ⟨j, hj⟩) [] =
          chunkAt d sizeN j ((sizeN + BLOCK_SIZE - 1) / BLOCK_SIZE)) ∧
      (∀ b, b < MAX_BLOCKS → s.bitmap.getD b true = true →
        b ∉ blocksOf (s.inodes.getD idx emptyInode) →
        s'.fdata.getD b [] = s.fdata.getD b []) ∧
      s'.mounted = s.mounted ∧ s'.fileExists = s.fileExists ∧ s'.fsb = s.fsb ∧
      s'.fbitmap = s.fbitmap ∧ s'.finodes = s.finodes ∧ s'.flen = s.flen := by
  obtain ⟨hidx, hused, hname⟩ := find_inode_some s.inodes f idx hfind
  set needed : Nat := (sizeN + BLOCK_SIZE - 1) / BLOCK_SIZE with hneed
  have hneedcap : needed ≤ MAX_DIRECT_BLOCKS := by
    rw [hneed]
    simp only [BLOCK_SIZE, MAX_DIRECT_BLOCKS] at hcap ⊢
    omega
  obtain ⟨hIF, hFentry, hFfree, hFlen, hFframe, hFfdata, hFm, hFfe, hFfsb,
    hFfbm, hFfin, hFflen, hFbit⟩ := freeOld_spec s idx h hidx hused
  have hFidx : idx < (freeOld s idx).inodes.length := by
    rw [hFlen]
    exact hidx
  have hFentry' : (freeOld s idx).inodes.getD idx emptyInode =
      { used := true, name := (s.inodes.getD idx emptyInode).name,
        size := (s.inodes.getD idx emptyInode).size,
        blocks := [] ++ List.replicate (MAX_DIRECT_BLOCKS - 0) 0 } := by
    rw [hFentry]
    simp
  have hFfreele : ((needed : Int) - ((0 : Nat) : Int)) ≤ (freeOld s idx).sb.free_blocks := by
    rw [hFfree]
    push_cast
    omega
  obtain ⟨cs, s₂, hloop, hInv₂, hcslen, h0cs, hentry₂, hlen₂, hframe₂,
    hcontent₂, hpres₂, hm₂, hfe₂, hfsb₂, hfbm₂, hfin₂, hflen₂⟩ :=
    allocLoop_sound idx d sizeN needed
      (s.inodes.getD idx emptyInode).name (s.inodes.getD idx emptyInode).size
      needed 0 [] (freeOld s idx) (Nat.sub_zero needed) hIF hFidx hFentry' rfl
      (Nat.zero_le needed) hneedcap hFfreele (by simp)
  have heq : fs_write s (some f) (some d) (sizeN : Int) =
      .ret 0 (finishWrite s₂ idx needed (sizeN : Int)) := by
    unfold fs_write
    rw [hm]
    simp only [Bool.true_eq_false, if_false]
    rw [if_neg (by omega), if_neg (by omega),
      if_neg (by
        simp only [MAX_FILES, BLOCK_SIZE, MAX_DIRECT_BLOCKS] at hcap ⊢
        push_cast
        omega),
      hfind]
    simp only [Int.toNat_natCast]
    rw [← hneed]
    rw [if_neg (by push_cast; omega)]
    rw [hloop]
  have hencs : [] ++ cs = cs := by simp
  rw [hencs] at hentry₂
  have hcslen' : cs.length = needed := by
    rw [hcslen]
    exact Nat.sub_zero needed
  have hidx₂ : idx < s₂.inodes.length := by
    rw [hlen₂, hFlen]
    exact hidx
  have hblocks2 : (cs ++ List.replicate (MAX_DIRECT_BLOCKS - needed) 0).take needed ++ ((cs ++ List.replicate (MAX_DIRECT_BLOCKS - needed) 0).drop needed).map (fun _ => 0) = cs ++ List.replicate (MAX_DIRECT_BLOCKS - needed) 0 := by
    rw [← hcslen', List.take_left, List.drop_left, map_const_eq_replicate,
      List.length_replicate]
  set X : Inode := { (s₂.inodes.getD idx emptyInode) with size := ((sizeN : Nat) : Int), blocks := (s₂.inodes.getD idx emptyInode).blocks.take needed ++ ((s₂.inodes.getD idx emptyInode).blocks.drop needed).map (fun _ => 0) } with hX
  have hfw : finishWrite s₂ idx needed ((sizeN : Nat) : Int) = { s₂ with inodes := s₂.inodes.set idx X } := rfl
  have hXE : X = { used := true, name := (s.inodes.getD idx emptyInode).name, size := ((sizeN : Nat) : Int), blocks := cs ++ List.replicate (MAX_DIRECT_BLOCKS - needed) 0 } := by
    rw [hX, hentry₂]
    show ({ used := true, name := (s.inodes.getD idx emptyInode).name, size := ((sizeN : Nat) : Int), blocks := (cs ++ List.replicate (MAX_DIRECT_BLOCKS - needed) 0).take needed ++ ((cs ++ List.replicate (MAX_DIRECT_BLOCKS - needed) 0).drop needed).map (fun _ => 0) } : Inode) = _
    rw [hblocks2]
  have hXused : X.used = (s₂.inodes.getD idx emptyInode).used := by
    rw [hX]
  have hXblocks : X.blocks = (s₂.inodes.getD idx emptyInode).blocks := by
    rw [hXE, hentry₂]
  refine ⟨cs, finishWrite s₂ idx needed (sizeN : Int), heq, ?_, hcslen', h0cs,
    ?_, ?_, ?_, ?_, ?_, ?_, ?_, ?_, ?_, ?_, ?_⟩
  · rw [hfw]
    exact sessionInv_set_same_blocks s₂ idx X hInv₂ hidx₂ hXused hXblocks
  · rw [hfw]
    show (s₂.inodes.set idx X).length = s.inodes.length
    rw [List.length_set, hlen₂, hFlen]
  · rw [hfw]
    show (s₂.inodes.set idx X).getD idx emptyInode = _
    rw [getD_set_self s₂.inodes idx X emptyInode hidx₂]
    exact hXE
  · intro k hk
    rw [hfw]
    show (s₂.inodes.set idx X).getD k emptyInode = s.inodes.getD k emptyInode
    rw [getD_set_ne s₂.inodes idx k X emptyInode (fun he => hk he.symm)]
    rw [hframe₂ k hk, hFframe k hk]
  · intro j hj
    rw [hfw]
    show s₂.fdata.getD (cs.get ⟨j, hj⟩) [] = _
    have := hcontent₂ j hj
    rw [this, Nat.zero_add]
  · intro b hbM hbit hnotB
    rw [hfw]
    show s₂.fdata.getD b [] = s.fdata.getD b []
    have hbitF : (freeOld s idx).bitmap.getD b true = true :=
      hFbit b hbM hbit hnotB
    have := (hpres₂ b hbM hbitF).1
    rw [this, hFfdata]
  · rw [hfw]
    show s₂.mounted = s.mounted
    rw [hm₂, hFm]
  · rw [hfw]
    show s₂.fileExists = s.fileExists
    rw [hfe₂, hFfe]
  · rw [hfw]
    show s₂.fsb = s.fsb
    rw [hfsb₂, hFfsb]
  · rw [hfw]
    show s₂.fbitmap = s.fbitmap
    rw [hfbm₂, hFfbm]
  · rw [hfw]
    show s₂.finodes = s.finodes
    rw [hfin₂, hFfin]
  · rw [hfw]
    show s₂.flen = s.flen
    rw [hflen₂, hFflen]

/-- When the needed block count exceeds the direct-pointer capacity, the
allocation loop can never return normally: it runs into the out-of-bounds
index (or a failed allocation) first. -/
theorem allocLoop_no_ret (idx : Nat) (d : List Nat) (sz needed : Nat)
    (hcap : MAX_DIRECT_BLOCKS < needed) :
    ∀ n i t, MAX_DIRECT_BLOCKS - i = n → i ≤ MAX_DIRECT_BLOCKS →
      ∀ code s₂, allocLoop idx d sz needed i t ≠ .ret code s₂ := by
  intro n
  induction n with
  | zero =>
    intro i t hn hi code s₂
    rw [allocLoop, if_pos (show i < needed by omega)]
    cases hfb : find_free_block t.bitmap with
    | none => simp
    | some b =>
      show (if MAX_DIRECT_BLOCKS ≤ i then WriteResult.oobIndex i else _) ≠ _
      rw [if_pos (show MAX_DIRECT_BLOCKS ≤ i by omega)]
      simp
  | succ k ih =>
    intro i t hn hi code s₂
    rw [allocLoop, if_pos (show i < needed by omega)]
    cases hfb : find_free_block t.bitmap with
    | none => simp
    | some b =>
      show (if MAX_DIRECT_BLOCKS ≤ i then WriteResult.oobIndex i else _) ≠ _
      rw [if_neg (show ¬ MAX_DIRECT_BLOCKS ≤ i by omega)]
      exact ih (i + 1) _ (by omega) (by omega) code s₂

/-- With all argument checks passing but a needed count beyond
`MAX_DIRECT_BLOCKS`, `fs_write` cannot return normally (it runs into
undefined behavior instead). -/
theorem fs_write_no_ret_of_big (s : Sys) (f : String) (d : List Nat)
    (size : Int) (idx : Nat) (hm : s.mounted = true)
    (hflen : f.length < MAX_FILENAME)
    (hfind : find_inode s.inodes f = some idx)
    (hpos : 0 < size) (hbound : size ≤ (MAX_FILES : Int) * (BLOCK_SIZE : Int))
    (hfree : ¬ s.sb.free_blocks <
      (((size.toNat + BLOCK_SIZE - 1) / BLOCK_SIZE : Nat) : Int))
    (hcap : MAX_DIRECT_BLOCKS < (size.toNat + BLOCK_SIZE - 1) / BLOCK_SIZE) :
    ∀ code s', fs_write s (some f) (some d) size ≠ .ret code s' := by
  intro code s' hcontra
  unfold fs_write at hcontra
  rw [hm] at hcontra
  simp only [Bool.true_eq_false, if_false] at hcontra
  rw [if_neg (by omega), if_neg (by omega), if_neg (by omega), hfind] at hcontra
  simp only [] at hcontra
  rw [if_neg hfree] at hcontra
  cases halloc : allocLoop idx d size.toNat
      ((size.toNat + BLOCK_SIZE - 1) / BLOCK_SIZE) 0 (freeOld s idx) with
  | ret c s₂ =>
    exact allocLoop_no_ret idx d size.toNat _ hcap (MAX_DIRECT_BLOCKS - 0) 0
      (freeOld s idx) rfl (Nat.zero_le _) c s₂ halloc
  | oobIndex i =>
    rw [halloc] at hcontra
    simp at hcontra
  | allocFail =>
    rw [halloc] at hcontra
    simp at hcontra

/-- Every normal return of `fs_write` preserves the session invariant. -/
theorem sessionInv_write (s : Sys) (fn : Option String) (dd : Option (List Nat))
    (size : Int) (code : Int) (s' : Sys) (h : SessionInv s)
    (hw : fs_write s fn dd size = .ret code s') : SessionInv s' := by
  have hw0 := hw
  unfold fs_write at hw
  split at hw
  · injection hw with h1 h2
    rw [← h2]
    exact h
  · rename_i hmne
    have hm : s.mounted = true := by
      cases hsm : s.mounted
      · exact absurd hsm hmne
      · rfl
    split at hw
    · injection hw with h1 h2
      rw [← h2]
      exact h
    · injection hw with h1 h2
      rw [← h2]
      exact h
    · rename_i f d
      split at hw
      · injection hw with h1 h2
        rw [← h2]
        exact h
      · rename_i hpos
        split at hw
        · injection hw with h1 h2
          rw [← h2]
          exact h
        · rename_i hflen
          split at hw
          · injection hw with h1 h2
            rw [← h2]
            exact h
          · rename_i hbound
            split at hw
            · injection hw with h1 h2
              rw [← h2]
              exact h
            · rename_i idx hfind
              simp only [] at hw
              split at hw
              · injection hw with h1 h2
                rw [← h2]
                exact h
              · rename_i hfree
                by_cases hcap12 :
                    (size.toNat + BLOCK_SIZE - 1) / BLOCK_SIZE ≤ MAX_DIRECT_BLOCKS
                · have hposN : 0 < size.toNat := by omega
                  have hcapN : size.toNat ≤ MAX_DIRECT_BLOCKS * BLOCK_SIZE := by
                    simp only [BLOCK_SIZE, MAX_DIRECT_BLOCKS] at hcap12 ⊢
                    omega
                  have hfreeN :
                      (((size.toNat + BLOCK_SIZE - 1) / BLOCK_SIZE : Nat) : Int) ≤
                        s.sb.free_blocks := by omega
                  obtain ⟨cs, s'', hweq, hInv'', _⟩ :=
                    fs_write_success s f d size.toNat idx h hm (by omega) hfind
                      hposN hcapN hfreeN
                  have hsz : ((size.toNat : Nat) : Int) = size :=
                    Int.toNat_of_nonneg (by omega)
                  rw [hsz] at hweq
                  rw [hw0] at hweq
                  injection hweq with h1 h2
                  rw [h2]
                  exact hInv''
                · exfalso
                  exact fs_write_no_ret_of_big s f d size idx hm (by omega) hfind
                    (by omega) (by omega) hfree (by omega) code s' hw0

/-- Every completed operation preserves the session invariant. -/
theorem sessionInv_step {s s' : Sys} (h : SessionInv s) (hs : Step s s') :
    SessionInv s' := by
  cases hs with
  | create fn => exact sessionInv_create s fn h
  | delete fn => exact sessionInv_delete s fn h
  | write fn d size code s' hw => exact sessionInv_write s fn d size code s' h hw
  | read fn b size => exact h
  | list b m => exact h

theorem usedBlocks_replicate_empty (n : Nat) :
    usedBlocks (List.replicate n emptyInode) = [] := by
  induction n with
  | zero => rfl
  | succ m ih =>
    show entryBlocks emptyInode ++ usedBlocks (List.replicate m emptyInode) = []
    rw [ih]
    simp [entryBlocks, emptyInode]

theorem usedCount_replicate_zero (n : Nat) :
    usedCount (List.replicate n emptyInode) = 0 := by
  induction n with
  | zero => rfl
  | succ m ih =>
    show (if emptyInode.used then 1 else 0) + usedCount (List.replicate m emptyInode) = 0
    rw [ih]
    simp [emptyInode]

theorem usedBlocks_freshInodes : usedBlocks freshInodes = [] := by
  unfold freshInodes
  exact usedBlocks_replicate_empty MAX_FILES

theorem usedCount_freshInodes : usedCount freshInodes = 0 := by
  unfold freshInodes
  exact usedCount_replicate_zero MAX_FILES

theorem mounted0_eq : mounted0 =
    { mounted := true, sb := freshSB, bitmap := freshBitmap,
      inodes := freshInodes, fileExists := true, fsb := freshSB,
      fbitmap := freshBitmap, finodes := freshInodes,
      fdata := List.replicate MAX_BLOCKS zeroBlock,
      flen := MAX_BLOCKS * BLOCK_SIZE } := by
  show (fs_mount (fs_format initSys).2).2 = _
  rw [show (fs_format initSys).2 =
    { mounted := false, sb := freshSB, bitmap := freshBitmap,
      inodes := freshInodes, fileExists := true, fsb := freshSB,
      fbitmap := freshBitmap, finodes := freshInodes,
      fdata := List.replicate MAX_BLOCKS zeroBlock,
      flen := MAX_BLOCKS * BLOCK_SIZE } from rfl]
  rw [fs_mount]
  rw [if_neg (by simp), if_neg (by simp), if_neg (by decide)]
  rw [if_neg (by
    simp only [sbValid, freshSB]
    decide), if_neg (by decide), if_neg (by decide)]

theorem freshBitmap_getD (b : Nat) (hb : b < MAX_BLOCKS) :
    freshBitmap.getD b true = decide (b < 10) := by
  unfold freshBitmap
  rw [List.getD_eq_getElem?_getD]
  rw [List.getElem?_map]
  rw [List.getElem?_range hb]
  rfl

theorem sessionInv_mounted0 : SessionInv mounted0 := by
  rw [mounted0_eq]
  refine ⟨?_, ?_, ?_, ?_, ?_, ?_, ?_, ?_, ?_, ?_, ?_⟩
  · show freshBitmap.length = MAX_BLOCKS
    unfold freshBitmap
    rw [List.length_map, List.length_range]
  · show (List.replicate MAX_BLOCKS zeroBlock).length = MAX_BLOCKS
    rw [List.length_replicate]
  · intro ino hmem
    have := List.eq_of_mem_replicate hmem
    rw [this]
    show (List.replicate MAX_DIRECT_BLOCKS 0).length = MAX_DIRECT_BLOCKS
    rw [List.length_replicate]
  · intro b hb
    rw [usedBlocks_freshInodes] at hb
    simp at hb
  · show (usedBlocks freshInodes).Nodup
    rw [usedBlocks_freshInodes]
    exact List.nodup_nil
  · intro b hb
    show freshBitmap.getD b true = true ↔ b < 10 ∨ b ∈ usedBlocks freshInodes
    rw [freshBitmap_getD b hb, usedBlocks_freshInodes]
    simp
  · show freshSB.free_blocks = ((MAX_BLOCKS : Int) - 10) - (usedBlocks freshInodes).length
    rw [usedBlocks_freshInodes]
    decide
  · show freshSB.free_inodes = (MAX_FILES : Int) - usedCount freshInodes
    rw [usedCount_freshInodes]
    decide
  · decide
  · decide
  · decide

/-- Claim support: every state reachable while mounted satisfies the session
invariant. -/
theorem sessionInv_reachable {s : Sys} (h : Reachable s) : SessionInv s := by
  induction h with
  | base => exact sessionInv_mounted0
  | step _ hs ih => exact sessionInv_step ih hs

theorem totalNzPtrs_decomp (l : List Inode) :
    (totalNzPtrs l : Int) = ((usedBlocks l).length : Int) := by
  rw [totalNzPtrs_eq_length_usedBlocks]

theorem nodup_usedBlocks_disjoint (l : List Inode)
    (h : (usedBlocks l).Nodup) :
    ∀ i j, i < j → j < l.length →
      (l.getD i emptyInode).used = true → (l.getD j emptyInode).used = true →
      ∀ b, b ∈ blocksOf (l.getD i emptyInode) →
        b ∉ blocksOf (l.getD j emptyInode) := by
  intro i j hij hj hui huj b hbi hbj
  have hi : i < l.length := by omega
  have hdec := usedBlocks_decomp l i hi
  rw [show entryBlocks (l.getD i emptyInode) = blocksOf (l.getD i emptyInode) by
    unfold entryBlocks
    rw [hui]
    simp] at hdec
  have hnf := nodup_middle_facts (hdec ▸ h)
  have hD : b ∈ usedBlocks (l.drop (i + 1)) := by
    refine mem_usedBlocks_of_getD (l.drop (i + 1)) (j - i - 1) b ?_ ?_ ?_
    · rw [List.length_drop]
      omega
    · rw [getD_drop, show i + 1 + (j - i - 1) = j by omega]
      exact huj
    · rw [getD_drop, show i + 1 + (j - i - 1) = j by omega]
      exact hbj
  exact hnf.2.2 b hbi hD

/-- Claim C2: in every state reachable while mounted (from a freshly
formatted-and-mounted image), after each operation completes, `free_blocks`
plus the number of non-zero block pointers over used inodes equals
`total_blocks` − 10, and `free_inodes` plus the number of used inodes equals
`total_inodes`. -/
theorem claim_C2_counter_invariant (s : Sys) (h : Reachable s) :
    s.sb.free_blocks + (totalNzPtrs s.inodes : Int) = s.sb.total_blocks - 10 ∧
    s.sb.free_inodes + (usedCount s.inodes : Int) = s.sb.total_inodes := by
  have hInv := sessionInv_reachable h
  constructor
  · rw [totalNzPtrs_decomp, hInv.hfb, hInv.htb]
    ring
  · rw [hInv.hfi, hInv.hti]
    ring

/-- Witness for C2 at the freshly formatted-and-mounted state. -/
theorem claim_C2_witness :
    mounted0.sb.free_blocks + (totalNzPtrs mounted0.inodes : Int) =
      mounted0.sb.total_blocks - 10 ∧
    mounted0.sb.free_inodes + (usedCount mounted0.inodes : Int) =
      mounted0.sb.total_inodes :=
  claim_C2_counter_invariant mounted0 Reachable.base

/-- Claim C3: in every state reachable while mounted from a freshly
formatted-and-mounted image, no two distinct used inodes share a non-zero
block index among their block pointers. -/
theorem claim_C3_block_disjoint (s : Sys) (h : Reachable s) :
    BlockDisjoint s := by
  have hInv := sessionInv_reachable h
  intro i j hi hj hne hui huj b hb0 hbi hbj
  have hbi' : b ∈ blocksOf (s.inodes.getD i emptyInode) := by
    simp only [blocksOf, List.mem_filter]
    exact ⟨hbi, by simpa using hb0⟩
  have hbj' : b ∈ blocksOf (s.inodes.getD j emptyInode) := by
    simp only [blocksOf, List.mem_filter]
    exact ⟨hbj, by simpa using hb0⟩
  rcases Nat.lt_or_ge i j with hij | hij
  · exact nodup_usedBlocks_disjoint s.inodes hInv.hnodup i j hij hj hui huj
      b hbi' hbj'
  · have hji : j < i := by omega
    exact nodup_usedBlocks_disjoint s.inodes hInv.hnodup j i hji hi huj hui
      b hbj' hbi'

/-- Witness for C3 at the freshly formatted-and-mounted state. -/
theorem claim_C3_witness : BlockDisjoint mounted0 :=
  claim_C3_block_disjoint mounted0 Reachable.base

/-- Claim C8: `fs_delete` returns −2 when unmounted, −3 on a null or oversized
name, −1 when no used inode bears the name, and 0 on success; the checks apply
in that order and no failure mutates the state. -/
theorem claim_C8_delete_codes (s : Sys) (fn : Option String) :
    (s.mounted = false → fs_delete s fn = (-2, s)) ∧
    (s.mounted = true →
      (fn = none ∨ ∃ f, fn = some f ∧ MAX_FILENAME ≤ f.length) →
      fs_delete s fn = (-3, s)) ∧
    (∀ f, s.mounted = true → fn = some f → f.length < MAX_FILENAME →
      find_inode s.inodes f = none → fs_delete s fn = (-1, s)) ∧
    (∀ f idx, s.mounted = true → fn = some f → f.length < MAX_FILENAME →
      find_inode s.inodes f = some idx → (fs_delete s fn).1 = 0) := by
  refine ⟨?_, ?_, ?_, ?_⟩
  · intro hm
    unfold fs_delete
    rw [hm, if_pos rfl]
  · intro hm hbad
    unfold fs_delete
    rw [hm]
    rw [if_neg (by simp)]
    rcases hbad with hnone | ⟨f, hsome, hlong⟩
    · rw [hnone]
    · rw [hsome]
      show (if MAX_FILENAME ≤ f.length then ((-3 : Int), s) else _) = ((-3 : Int), s)
      rw [if_pos hlong]
  · intro f hm hfn hlen hfind
    unfold fs_delete
    rw [hm, if_neg (by simp), hfn]
    show (if MAX_FILENAME ≤ f.length then ((-3 : Int), s) else _) = ((-1 : Int), s)
    rw [if_neg (by omega), hfind]
  · intro f idx hm hfn hlen hfind
    unfold fs_delete
    rw [hm, if_neg (by simp), hfn]
    show (if MAX_FILENAME ≤ f.length then ((-3 : Int), s) else _).1 = (0 : Int)
    rw [if_neg (by omega), hfind]

/-- Witness for C8: each branch exercised at a concrete state. -/
theorem claim_C8_witness :
    fs_delete initSys (some "a.txt") = (-2, initSys) ∧
    fs_delete sTiny none = (-3, sTiny) ∧
    fs_delete sTiny (some "aaaaaaaaaaaaaaaaaaaaaaaaaaaa") = (-3, sTiny) ∧
    fs_delete sTiny (some "nope.txt") = (-1, sTiny) ∧
    (fs_delete sTiny (some "a.txt")).1 = 0 := by
  refine ⟨(claim_C8_delete_codes initSys (some "a.txt")).1 rfl,
    (claim_C8_delete_codes sTiny none).2.1 rfl (Or.inl rfl),
    (claim_C8_delete_codes sTiny
      (some "aaaaaaaaaaaaaaaaaaaaaaaaaaaa")).2.1 rfl
      (Or.inr ⟨"aaaaaaaaaaaaaaaaaaaaaaaaaaaa", rfl, by decide⟩),
    (claim_C8_delete_codes sTiny (some "nope.txt")).2.2.1 "nope.txt" rfl rfl
      (by decide) (by decide),
    (claim_C8_delete_codes sTiny (some "a.txt")).2.2.2 "a.txt" 0 rfl rfl
      (by decide) (by decide)⟩

theorem listLoop_eq (l : List Inode) : ∀ m, listLoop l m =
    ((l.filter (fun ino => ino.used)).map (fun ino => ino.name)).take m := by
  induction l with
  | nil =>
    intro m
    cases m <;> rfl
  | cons x xs ih =>
    intro m
    cases m with
    | zero => rfl
    | succ k =>
      show (if k + 1 = 0 then [] else
        if x.used then x.name :: listLoop xs k else listLoop xs (k + 1)) = _
      rw [if_neg (Nat.succ_ne_zero k)]
      by_cases hx : x.used
      · rw [if_pos hx]
        simp only [List.filter_cons, hx, if_true, List.map_cons,
          List.take_succ_cons]
        rw [ih k]
      · rw [if_neg hx]
        simp only [List.filter_cons, hx, Bool.false_eq_true, if_false]
        rw [ih (k + 1)]

/-- Claim C9 (amended): for a mounted session with a buffer and
`0 < maxEntries ≤ MAX_FILES`, `fs_list` emits the names of used inodes in
ascending slot order, up to `maxEntries` of them, and returns the count
written; otherwise it fails with −1 (not −3) and writes nothing. -/
theorem claim_C9_list_contract (s : Sys) (bufPresent : Bool) (m : Int) :
    (s.mounted = true → bufPresent = true → 0 < m → m ≤ (MAX_FILES : Int) →
      fs_list s bufPresent m =
        (((((s.inodes.filter (fun ino => ino.used)).map
            (fun ino => ino.name)).take m.toNat).length : Int),
         (((s.inodes.filter (fun ino => ino.used)).map
            (fun ino => ino.name)).take m.toNat))) ∧
    ((s.mounted = false ∨ bufPresent = false ∨ m ≤ 0 ∨ (MAX_FILES : Int) < m) →
      fs_list s bufPresent m = (-1, [])) := by
  constructor
  · intro hm hbuf hpos hle
    unfold fs_list
    rw [hm, if_neg (by simp), hbuf, if_neg (by simp), if_neg (by omega),
      if_neg (by omega)]
    show (((listLoop s.inodes m.toNat).length : Int), listLoop s.inodes m.toNat) = _
    rw [listLoop_eq]
  · intro hbad
    unfold fs_list
    rcases hbad with h1 | h1 | h1 | h1
    · rw [h1, if_pos rfl]
    · cases hsm : s.mounted
      · rw [if_pos rfl]
      · rw [if_neg (by simp), h1, if_pos rfl]
    · cases hsm : s.mounted
      · rw [if_pos rfl]
      · rw [if_neg (by simp)]
        cases hb : bufPresent
        · rw [if_pos rfl]
        · rw [if_neg (by simp), if_pos h1]
    · cases hsm : s.mounted
      · rw [if_pos rfl]
      · rw [if_neg (by simp)]
        cases hb : bufPresent
        · rw [if_pos rfl]
        · rw [if_neg (by simp), if_neg (by omega), if_pos h1]

/-- Counterexample for C9 as frozen: with a null buffer on a mounted session
`fs_list` returns −1, not the claimed invalid-argument status −3. -/
theorem claim_C9_counterexample :
    (fs_list sTiny false 5).1 = -1 ∧ (fs_list sTiny false 5).1 ≠ -3 := by
  decide

/-- Witness for C9 (amended) at a concrete session. -/
theorem claim_C9_witness :
    fs_list sTiny true 5 =
      ((((((sTiny.inodes.filter (fun ino => ino.used)).map
        (fun ino => ino.name)).take (5 : Int).toNat).length : Int)),
       (((sTiny.inodes.filter (fun ino => ino.used)).map
        (fun ino => ino.name)).take (5 : Int).toNat)) ∧
    fs_list sTiny false 5 = (-1, []) :=
  ⟨(claim_C9_list_contract sTiny true 5).1 rfl rfl (by decide) (by decide),
   (claim_C9_list_contract sTiny false 5).2 (Or.inr (Or.inl rfl))⟩

/-- Claim C7: `fs_mount` fails if already mounted; a stored-geometry mismatch
or a short read returns −1, closes the handle, and leaves the session
unmounted; on success the stored superblock (including its free counters),
bitmap and inode table are adopted as-is, with no recomputation. -/
theorem claim_C7_mount_contract (s : Sys) :
    (s.mounted = true → fs_mount s = (-1, s)) ∧
    (s.mounted = false → s.fileExists = true → SB_BYTES ≤ s.flen →
      ¬ sbValid s.fsb →
      (fs_mount s).1 = -1 ∧ (fs_mount s).2.mounted = false) ∧
    (s.mounted = false →
      (s.flen < SB_BYTES ∨ s.flen < 2 * BLOCK_SIZE ∨
        s.flen < 2 * BLOCK_SIZE + MAX_FILES * INODE_BYTES) →
      (fs_mount s).1 = -1 ∧ (fs_mount s).2.mounted = false) ∧
    (s.mounted = false → s.fileExists = true → sbValid s.fsb →
      2 * BLOCK_SIZE + MAX_FILES * INODE_BYTES ≤ s.flen →
      fs_mount s = (0, { s with sb := s.fsb, bitmap := s.fbitmap, inodes := s.finodes, mounted := true })) := by
  refine ⟨?_, ?_, ?_, ?_⟩
  · intro hm
    unfold fs_mount
    rw [hm, if_pos rfl]
  · intro hm hfe hsb hbad
    unfold fs_mount
    rw [hm]
    rw [if_neg (by simp), hfe]
    rw [if_neg (by simp), if_neg (by omega), if_pos hbad]
    exact ⟨rfl, rfl⟩
  · intro hm hshort
    unfold fs_mount
    rw [hm]
    rw [if_neg (by simp)]
    cases hfe : s.fileExists
    · rw [if_pos rfl]
      exact ⟨rfl, by simp [hm]⟩
    · rw [if_neg (by simp)]
      by_cases h1 : s.flen < SB_BYTES
      · rw [if_pos h1]
        exact ⟨rfl, by simp [hm]⟩
      · rw [if_neg h1]
        by_cases h2 : sbValid s.fsb
        · rw [if_neg (by simp [h2])]
          by_cases h3 : s.flen < 2 * BLOCK_SIZE
          · rw [if_pos h3]
            exact ⟨rfl, by simp [hm]⟩
          · rw [if_neg h3]
            by_cases h4 : s.flen < 2 * BLOCK_SIZE + MAX_FILES * INODE_BYTES
            · rw [if_pos h4]
              exact ⟨rfl, by simp [hm]⟩
            · exfalso
              rcases hshort with h | h | h
              · exact h1 h
              · exact h3 h
              · exact h4 h
        · rw [if_pos h2]
          exact ⟨rfl, rfl⟩
  · intro hm hfe hsb hlen
    unfold fs_mount
    rw [hm]
    rw [if_neg (by simp), hfe, if_neg (by simp),
      if_neg (by simp only [SB_BYTES, BLOCK_SIZE, MAX_FILES, MAX_FILENAME, MAX_DIRECT_BLOCKS, INODE_BYTES] at hlen ⊢; omega),
      if_neg (by simp [hsb]),
      if_neg (by simp only [SB_BYTES, BLOCK_SIZE, MAX_FILES, MAX_FILENAME, MAX_DIRECT_BLOCKS, INODE_BYTES] at hlen ⊢; omega),
      if_neg (by omega)]

/-- Witness for C7: all four branches at concrete states. -/
theorem claim_C7_witness :
    fs_mount sTiny = (-1, sTiny) ∧
    ((fs_mount sBadSB).1 = -1 ∧ (fs_mount sBadSB).2.mounted = false) ∧
    ((fs_mount sShort).1 = -1 ∧ (fs_mount sShort).2.mounted = false) ∧
    fs_mount fmtState = (0, { fmtState with sb := fmtState.fsb, bitmap := fmtState.fbitmap, inodes := fmtState.finodes, mounted := true }) :=
  ⟨(claim_C7_mount_contract sTiny).1 rfl,
   (claim_C7_mount_contract sBadSB).2.1 rfl rfl (by decide) (by decide),
   (claim_C7_mount_contract sShort).2.2.1 rfl (Or.inl (by decide)),
   (claim_C7_mount_contract fmtState).2.2.2 rfl rfl (by decide) (by decide)⟩

/-- Claim C4: for a mounted session and an existing file, when the free-block
counter is below `ceil(size / BLOCK_SIZE)`, `fs_write` returns −2 and the
entire session state (superblock counters, bitmap, every inode, and all
data-block contents) is exactly the state before the call. -/
theorem claim_C4_write_space_check (s : Sys) (f : String) (d : List Nat)
    (size : Int) (idx : Nat)
    (hm : s.mounted = true) (hflen : f.length < MAX_FILENAME)
    (hfind : find_inode s.inodes f = some idx)
    (hpos : 0 < size) (hbound : size ≤ (MAX_FILES : Int) * (BLOCK_SIZE : Int))
    (hfree : s.sb.free_blocks <
      (((size.toNat + BLOCK_SIZE - 1) / BLOCK_SIZE : Nat) : Int)) :
    fs_write s (some f) (some d) size = .ret (-2) s := by
  unfold fs_write
  rw [hm]
  simp only [Bool.true_eq_false, if_false]
  rw [if_neg (by omega), if_neg (by omega), if_neg (by omega), hfind]
  simp only []
  rw [if_pos hfree]

/-- Witness for C4: a 119-block write on a session with 118 free blocks. -/
theorem claim_C4_witness :
    fs_write sTiny (some "a.txt") (some []) 483329 = .ret (-2) sTiny :=
  claim_C4_write_space_check sTiny "a.txt" [] 483329 0 rfl (by decide)
    (by decide) (by decide) (by decide) (by decide)

/-- On enough fuel the structural twin computes exactly `allocLoop`. -/
theorem allocLoop_eq_fuel (idx : Nat) (d : List Nat) (sz needed : Nat) :
    ∀ fuel i t, needed - i ≤ fuel →
      allocLoop idx d sz needed i t = allocLoopF fuel idx d sz needed i t := by
  intro fuel
  induction fuel with
  | zero =>
    intro i t hf
    rw [allocLoop, if_neg (by omega)]
    rfl
  | succ k ih =>
    intro i t hf
    rw [allocLoop]
    show _ = (if i < needed then _ else WriteResult.ret 0 t)
    by_cases hi : i < needed
    · rw [if_pos hi, if_pos hi]
      cases hfb : find_free_block t.bitmap with
      | none => rfl
      | some b =>
        show (if MAX_DIRECT_BLOCKS ≤ i then WriteResult.oobIndex i else _) =
          (if MAX_DIRECT_BLOCKS ≤ i then WriteResult.oobIndex i else _)
        by_cases hob : MAX_DIRECT_BLOCKS ≤ i
        · rw [if_pos hob, if_pos hob]
        · rw [if_neg hob, if_neg hob]
          exact ih (i + 1) _ (by omega)
    · rw [if_neg hi, if_neg hi]

set_option maxRecDepth 100000 in
/-- Claim C5 refuted on the code: size 49153 passes every check of `fs_write`
(it is below `MAX_FILES * BLOCK_SIZE` and 13 ≤ 118 blocks are free on a fresh
image with one file), yet the allocation loop reaches index 12 =
`MAX_DIRECT_BLOCKS` of the `blocks` array — the out-of-bounds store the claim
calls unreachable. -/
theorem claim_C5_oob_reached :
    MAX_DIRECT_BLOCKS < (49153 + BLOCK_SIZE - 1) / BLOCK_SIZE ∧
    49153 ≤ MAX_FILES * BLOCK_SIZE ∧
    fs_write createdState (some "a.txt") (some (List.replicate 49153 0)) 49153 =
      .oobIndex MAX_DIRECT_BLOCKS := by
  refine ⟨by decide, by decide, ?_⟩
  unfold fs_write
  rw [show createdState.mounted = true from by decide]
  simp only [Bool.true_eq_false, if_false]
  rw [if_neg (by decide), if_neg (by decide), if_neg (by decide),
    show find_inode createdState.inodes "a.txt" = some 0 from by decide]
  simp only []
  rw [if_neg (by decide), allocLoop_eq_fuel 0 (List.replicate 49153 0)
    (Int.toNat 49153) (((49153 : Int).toNat + BLOCK_SIZE - 1) / BLOCK_SIZE) 13 0
    (freeOld createdState 0) (by decide)]
  decide

/-- Claim C1 as frozen is false at its stated boundary: the claim quantifies
over sizes `0 ≤ s`, but at `s = 0` `fs_write` rejects with −3 (and then
`fs_read` at size 0 also returns −3, not 0 bytes); moreover with a free-block
counter of 0 a one-byte round trip returns −2 / 0 bytes rather than the data.
So the round trip needs `0 < s` and enough free blocks. -/
theorem claim_C1_counterexample :
    (fs_read ((fs_write sTiny (some "a.txt") (some []) 0).state?.getD sTiny)
      (some "a.txt") true 0).1 ≠ 0 ∧
    (fs_read ((fs_write sTinyFull (some "a.txt") (some [7]) 1).state?.getD
      sTinyFull) (some "a.txt") true 1).1 ≠ 1 := by
  decide

/-- Claim C1 (amended): for a mounted session satisfying the session
invariant, an existing file name, a positive size `s ≤ MAX_DIRECT_BLOCKS *
BLOCK_SIZE` with data of exactly `s` bytes and at least `ceil(s/BLOCK_SIZE)`
free blocks, `fs_write` succeeds and the following `fs_read` of `s` bytes
returns exactly `s` and the bytes equal the data written. -/
theorem claim_C1_write_read_roundtrip (s : Sys) (f : String) (d : List Nat)
    (sizeN : Nat) (idx : Nat)
    (h : SessionInv s) (hm : s.mounted = true)
    (hflen : f.length < MAX_FILENAME)
    (hfind : find_inode s.inodes f = some idx)
    (hpos : 0 < sizeN) (hcap : sizeN ≤ MAX_DIRECT_BLOCKS * BLOCK_SIZE)
    (hd : d.length = sizeN)
    (hfree : (((sizeN + BLOCK_SIZE - 1) / BLOCK_SIZE : Nat) : Int) ≤
      s.sb.free_blocks) :
    ∃ s', fs_write s (some f) (some d) (sizeN : Int) = .ret 0 s' ∧
      fs_read s' (some f) true (sizeN : Int) = ((sizeN : Int), d) := by
  obtain ⟨cs, s', hweq, hInv', hcslen, h0cs, hleneq, hentry, hframe, hcontent,
    hpres, hmount, hfe, hfsb, hfbm, hfin, hflen2⟩ :=
    fs_write_success s f d sizeN idx h hm hflen hfind hpos hcap hfree
  refine ⟨s', hweq, ?_⟩
  have hm' : s'.mounted = true := by rw [hmount, hm]
  obtain ⟨hidx, hused, hname⟩ := find_inode_some s.inodes f idx hfind
  have hfind' : find_inode s'.inodes f = some idx := by
    have hcg : find_inode s'.inodes f = find_inode s.inodes f := by
      unfold find_inode
      apply findFirst?_congr _ emptyInode s'.inodes s.inodes hleneq
      intro k hk
      by_cases hkidx : k = idx
      · subst hkidx
        rw [hentry]
        simp only [hused, hname]
      · rw [hframe k hkidx]
    rw [hcg, hfind]
  unfold fs_read
  rw [hm']
  simp only [Bool.true_eq_false, if_false]
  rw [if_neg (by omega : ¬ (sizeN : Int) ≤ 0), if_neg hflen.not_le, hfind']
  simp only []
  rw [hentry]
  simp only []
  rw [if_neg (lt_irrefl ((sizeN : Nat) : Int))]
  simp only [Int.toNat_natCast]
  have hrl := readLoop_reconstruct s'.fdata d sizeN
    ((sizeN + BLOCK_SIZE - 1) / BLOCK_SIZE) hpos rfl hd cs 0
    (MAX_DIRECT_BLOCKS - (sizeN + BLOCK_SIZE - 1) / BLOCK_SIZE)
    (Nat.zero_le _) (by rw [hcslen, Nat.sub_zero]) h0cs
    (fun m hm2 => by rw [Nat.zero_add]; exact hcontent m hm2)
  simp only [Nat.zero_mul, Nat.sub_zero, List.drop_zero] at hrl
  rw [hrl, hd]

set_option maxRecDepth 100000 in
/-- Witness for the amended C1 at a concrete session: writing the single byte
7 into `a.txt` and reading one byte back yields exactly that byte. -/
theorem claim_C1_witness :
    ∃ s', fs_write sTiny (some "a.txt") (some [7]) 1 = .ret 0 s' ∧
      fs_read s' (some "a.txt") true 1 = (1, [7]) :=
  claim_C1_write_read_roundtrip sTiny "a.txt" [7] 1 0
    ⟨by decide, by decide, by decide, by decide, by decide, by decide,
     by decide, by decide, by decide, by decide, by decide⟩
    rfl (by decide) (by decide) (by decide) (by decide) (by decide) (by decide)

set_option maxRecDepth 100000 in
/-- Claim C10 as frozen is false: block-disjointness of the inode table alone
does not protect other files' data.  In `sLie` the two used inodes share no
block (disjointness holds), but the bitmap wrongly reports `b.txt`'s data
block 10 as free, so a successful one-byte write to `a.txt` allocates block 10
and overwrites `b.txt`'s data.  The frame property additionally needs an
accurate bitmap (as in the session invariant). -/
theorem claim_C10_counterexample :
    BlockDisjoint sLie ∧ sLie.mounted = true ∧
    (fs_write sLie (some "a.txt") (some [9]) 1).code? = some 0 ∧
    10 ∈ (sLie.inodes.getD 1 emptyInode).blocks ∧
    ((fs_write sLie (some "a.txt") (some [9]) 1).state?.getD sLie).fdata.getD
      10 [] ≠ sLie.fdata.getD 10 [] := by
  refine ⟨?_, rfl, ?_⟩
  · intro i j hi hj hne hui huj b hb0 hbi
    have hi2 : i < 2 := hi
    have hj2 : j < 2 := hj
    interval_cases i <;> interval_cases j
    · exact absurd rfl hne
    · rw [show (sLie.inodes.getD 0 emptyInode).blocks =
        List.replicate MAX_DIRECT_BLOCKS 0 from rfl, List.mem_replicate] at hbi
      exact absurd hbi.2 hb0
    · rw [show (sLie.inodes.getD 0 emptyInode).blocks =
        List.replicate MAX_DIRECT_BLOCKS 0 from rfl, List.mem_replicate]
      rintro ⟨-, h0⟩
      exact hb0 h0
    · exact absurd rfl hne
  · unfold fs_write
    rw [show sLie.mounted = true from by decide]
    simp only [Bool.true_eq_false, if_false]
    rw [if_neg (by decide), if_neg (by decide), if_neg (by decide),
      show find_inode sLie.inodes "a.txt" = some 0 from by decide]
    simp only []
    rw [if_neg (by decide), allocLoop_eq_fuel 0 [9] (Int.toNat 1)
      (((1 : Int).toNat + BLOCK_SIZE - 1) / BLOCK_SIZE) 1 0
      (freeOld sLie 0) (by decide)]
    decide

/-- Claim C10 (amended): under the session invariant (which adds bitmap
accuracy to block-disjointness), a successful `fs_write` leaves every other
inode slot — used flag, name, size and block pointers — and the contents of
every data block referenced by another used slot exactly unchanged. -/
theorem claim_C10_write_frame (s : Sys) (f : String) (d : List Nat)
    (sizeN : Nat) (idx : Nat)
    (h : SessionInv s) (hm : s.mounted = true)
    (hflen : f.length < MAX_FILENAME)
    (hfind : find_inode s.inodes f = some idx)
    (hpos : 0 < sizeN) (hcap : sizeN ≤ MAX_DIRECT_BLOCKS * BLOCK_SIZE)
    (hfree : (((sizeN + BLOCK_SIZE - 1) / BLOCK_SIZE : Nat) : Int) ≤
      s.sb.free_blocks) :
    ∃ s', fs_write s (some f) (some d) (sizeN : Int) = .ret 0 s' ∧
      (∀ k, k ≠ idx →
        s'.inodes.getD k emptyInode = s.inodes.getD k emptyInode) ∧
      (∀ k, k < s.inodes.length → k ≠ idx →
        (s.inodes.getD k emptyInode).used = true →
        ∀ b ∈ blocksOf (s.inodes.getD k emptyInode),
          s'.fdata.getD b [] = s.fdata.getD b []) := by
  obtain ⟨cs, s', hweq, hInv', hcslen, h0cs, hleneq, hentry, hframe, hcontent,
    hpres, hmount, hfe, hfsb, hfbm, hfin, hflen2⟩ :=
    fs_write_success s f d sizeN idx h hm hflen hfind hpos hcap hfree
  obtain ⟨hidx, hused, hname⟩ := find_inode_some s.inodes f idx hfind
  refine ⟨s', hweq, hframe, ?_⟩
  intro k hklen hkidx hkused b hb
  have hbmem : b ∈ usedBlocks s.inodes := by
    rw [usedBlocks_decomp s.inodes k hklen]
    have hbe : b ∈ entryBlocks (s.inodes.getD k emptyInode) := by
      unfold entryBlocks
      rw [hkused]
      simpa using hb
    exact List.mem_append_left _ (List.mem_append_right _ hbe)
  have hblt : b < MAX_BLOCKS := (h.hrange b hbmem).2
  have hbit : s.bitmap.getD b true = true :=
    (h.hbm b hblt).mpr (Or.inr hbmem)
  have hnotin : b ∉ blocksOf (s.inodes.getD idx emptyInode) := by
    rcases Nat.lt_or_ge k idx with hlt | hge
    · exact nodup_usedBlocks_disjoint s.inodes h.hnodup k idx hlt hidx
        hkused hused b hb
    · have hlt' : idx < k := by omega
      intro hbin
      exact nodup_usedBlocks_disjoint s.inodes h.hnodup idx k hlt' hklen
        hused hkused b hbin hb
  exact hpres b hblt hbit hnotin

set_option maxRecDepth 100000 in
/-- Witness for the amended C10 at a concrete session: a one-byte write into
`a.txt` succeeds and the frame conclusions hold for every other slot. -/
theorem claim_C10_witness :
    ∃ s', fs_write sTiny (some "a.txt") (some [7]) 1 = .ret 0 s' ∧
      (∀ k, k ≠ 0 →
        s'.inodes.getD k emptyInode = sTiny.inodes.getD k emptyInode) ∧
      (∀ k, k < sTiny.inodes.length → k ≠ 0 →
        (sTiny.inodes.getD k emptyInode).used = true →
        ∀ b ∈ blocksOf (sTiny.inodes.getD k emptyInode),
          s'.fdata.getD b [] = sTiny.fdata.getD b []) :=
  claim_C10_write_frame sTiny "a.txt" [7] 1 0
    ⟨by decide, by decide, by decide, by decide, by decide, by decide,
     by decide, by decide, by decide, by decide, by decide⟩
    rfl (by decide) (by decide) (by decide) (by decide) (by decide)

set_option maxRecDepth 100000 in
/-- Claim C6: starting from the pristine world, the sequence
`format; mount; create "a.txt"; write "a.txt" X; unmount; mount; read "a.txt"`
succeeds at every step (for data of positive size up to
`MAX_DIRECT_BLOCKS * BLOCK_SIZE`) and the final read returns X unchanged. -/
theorem claim_C6_persistence (X : List Nat) (sizeN : Nat)
    (hpos : 0 < sizeN) (hcap : sizeN ≤ MAX_DIRECT_BLOCKS * BLOCK_SIZE)
    (hX : X.length = sizeN) :
    (fs_format initSys).1 = 0 ∧
    (fs_mount (fs_format initSys).2).1 = 0 ∧
    (fs_create (fs_mount (fs_format initSys).2).2 (some "a.txt")).1 = 0 ∧
    ∃ s4, fs_write (fs_create (fs_mount (fs_format initSys).2).2
        (some "a.txt")).2 (some "a.txt") (some X) (sizeN : Int) =
        WriteResult.ret 0 s4 ∧
      (fs_mount (fs_unmount s4)).1 = 0 ∧
      fs_read (fs_mount (fs_unmount s4)).2 (some "a.txt") true (sizeN : Int) =
        ((sizeN : Int), X) := by
  have hInvC : SessionInv createdState :=
    sessionInv_create mounted0 (some "a.txt") sessionInv_mounted0
  have hfindC : find_inode createdState.inodes "a.txt" = some 0 := by decide
  have hfree : (((sizeN + BLOCK_SIZE - 1) / BLOCK_SIZE : Nat) : Int) ≤
      createdState.sb.free_blocks := by
    have h118 : createdState.sb.free_blocks = 118 := by decide
    rw [h118]
    simp only [BLOCK_SIZE, MAX_DIRECT_BLOCKS] at hcap ⊢
    omega
  obtain ⟨cs, s4, hweq, hInv4, hcslen, h0cs, hleneq, hentry, hframe, hcontent,
    hpres, hmount, hfe, hfsb, hfbm, hfin, hflen2⟩ :=
    fs_write_success createdState "a.txt" X sizeN 0 hInvC (by decide)
      (by decide) hfindC hpos hcap hfree
  have hm4 : s4.mounted = true := by rw [hmount]; decide
  have hfe4 : s4.fileExists = true := by rw [hfe]; decide
  have hunm : fs_unmount s4 = { s4 with fsb := s4.sb, fbitmap := s4.bitmap, finodes := s4.inodes, flen := max s4.flen (2 * BLOCK_SIZE + MAX_FILES * INODE_BYTES), mounted := false } := by
    unfold fs_unmount
    rw [hm4, if_neg (by decide : ¬ (true = false))]
  have hsbv : sbValid s4.sb := ⟨hInv4.htb, hInv4.hbs, hInv4.hti⟩
  have hmnt : fs_mount (fs_unmount s4) = (0, { s4 with fsb := s4.sb, fbitmap := s4.bitmap, finodes := s4.inodes, flen := max s4.flen (2 * BLOCK_SIZE + MAX_FILES * INODE_BYTES), mounted := true }) := by
    rw [hunm]
    unfold fs_mount
    rw [if_neg (by simp), if_neg (by simp [hfe4])]
    rw [if_neg (by
      show ¬ max s4.flen (2 * BLOCK_SIZE + MAX_FILES * INODE_BYTES) < SB_BYTES
      have h9 := Nat.le_max_right s4.flen
        (2 * BLOCK_SIZE + MAX_FILES * INODE_BYTES)
      simp only [SB_BYTES, BLOCK_SIZE, MAX_FILES, INODE_BYTES,
        MAX_FILENAME, MAX_DIRECT_BLOCKS] at h9 ⊢
      omega)]
    simp only []
    rw [if_neg (not_not_intro hsbv)]
    rw [if_neg (by
      show ¬ max s4.flen (2 * BLOCK_SIZE + MAX_FILES * INODE_BYTES) <
        2 * BLOCK_SIZE
      have h9 := Nat.le_max_right s4.flen
        (2 * BLOCK_SIZE + MAX_FILES * INODE_BYTES)
      simp only [BLOCK_SIZE, MAX_FILES, INODE_BYTES,
        MAX_FILENAME, MAX_DIRECT_BLOCKS] at h9 ⊢
      omega)]
    rw [if_neg (by
      show ¬ max s4.flen (2 * BLOCK_SIZE + MAX_FILES * INODE_BYTES) <
        2 * BLOCK_SIZE + MAX_FILES * INODE_BYTES
      exact Nat.not_lt.mpr (Nat.le_max_right _ _))]
  have hm6 : (fs_mount (fs_unmount s4)).2.mounted = true := by rw [hmnt]
  have hi6 : (fs_mount (fs_unmount s4)).2.inodes = s4.inodes := by rw [hmnt]
  have hd6 : (fs_mount (fs_unmount s4)).2.fdata = s4.fdata := by rw [hmnt]
  have hfind4 : find_inode s4.inodes "a.txt" = some 0 := by
    have hname : (createdState.inodes.getD 0 emptyInode).name = "a.txt" := by
      decide
    have hused : (createdState.inodes.getD 0 emptyInode).used = true := by
      decide
    have hcg : find_inode s4.inodes "a.txt" =
        find_inode createdState.inodes "a.txt" := by
      unfold find_inode
      apply findFirst?_congr _ emptyInode s4.inodes createdState.inodes hleneq
      intro k hk
      by_cases hkidx : k = 0
      · subst hkidx
        rw [hentry]
        simp only [hused, hname]
      · rw [hframe k hkidx]
    rw [hcg, hfindC]
  refine ⟨rfl, by decide, by decide, s4, hweq, by rw [hmnt], ?_⟩
  unfold fs_read
  rw [hm6, hi6, hd6]
  simp only [Bool.true_eq_false, if_false]
  rw [if_neg (by omega : ¬ (sizeN : Int) ≤ 0),
    if_neg (by decide : ¬ MAX_FILENAME ≤ "a.txt".length), hfind4]
  simp only []
  rw [hentry]
  simp only []
  rw [if_neg (lt_irrefl ((sizeN : Nat) : Int))]
  simp only [Int.toNat_natCast]
  have hrl := readLoop_reconstruct s4.fdata X sizeN
    ((sizeN + BLOCK_SIZE - 1) / BLOCK_SIZE) hpos rfl hX cs 0
    (MAX_DIRECT_BLOCKS - (sizeN + BLOCK_SIZE - 1) / BLOCK_SIZE)
    (Nat.zero_le _) (by rw [hcslen, Nat.sub_zero]) h0cs
    (fun m hm2 => by rw [Nat.zero_add]; exact hcontent m hm2)
  simp only [Nat.zero_mul, Nat.sub_zero, List.drop_zero] at hrl
  rw [hrl, hX]

set_option maxRecDepth 100000 in
/-- Witness for C6 with the one-byte payload `[7]`. -/
theorem claim_C6_witness :
    (fs_format initSys).1 = 0 ∧
    (fs_mount (fs_format initSys).2).1 = 0 ∧
    (fs_create (fs_mount (fs_format initSys).2).2 (some "a.txt")).1 = 0 ∧
    ∃ s4, fs_write (fs_create (fs_mount (fs_format initSys).2).2
        (some "a.txt")).2 (some "a.txt") (some [7]) 1 =
        WriteResult.ret 0 s4 ∧
      (fs_mount (fs_unmount s4)).1 = 0 ∧
      fs_read (fs_mount (fs_unmount s4)).2 (some "a.txt") true 1 = (1, [7]) :=
  claim_C6_persistence [7] 1 (by decide) (by decide) (by decide)
